import Mathlib

set_option maxHeartbeats 1000000

/-!
Verification of the sesh aggregation-and-resolution subsystem.

This file shallowly embeds the GitHub-related core of the repository:
the TTL file cache (`github/cache.go`), the shorthand resolver
(`github/shorthand.go`), the multi-scope repository adapter
(`lister/github.go`, `model/github.go`), the GitHub branch of the
lister (`lister/github.go`) and the connector's GitHub strategy
(`connector/github.go`).  Filesystem, network and clock effects are
made explicit parameters (oracles), and each Go function is translated
into an executable Lean definition; the theorems at the end settle the
specification claims against those definitions.
-/

/-- Normalized repository record, translated from `model/github.go`
(`GitHubRepo`).  The JSON tags are irrelevant to the embedded logic. -/
structure GitHubRepo where
  ID : Int
  Name : String
  FullName : String
  Description : String
  CloneURL : String
  SSHURL : String
  HTMLURL : String
  Private : Bool
  Fork : Bool
  Archived : Bool
  Disabled : Bool
  Language : String
  UpdatedAt : String
  PushedAt : String
  Topics : List String
deriving DecidableEq

/-- One configured organization/user scope, from `model/github.go`
(`GitHubOrgConfig`). -/
structure GitHubOrgConfig where
  Name : String
  DisplayName : String
  Token : String
deriving DecidableEq

/-- GitHub configuration, from `model/github.go` (`GitHubConfig`).
`ShowUncloned`/`ShowDescription` are `*bool` in Go, hence `Option Bool`. -/
structure GitHubConfig where
  Organization : String
  Organizations : List GitHubOrgConfig
  Token : String
  CacheTimeout : Int
  CloneDir : String
  UseSSH : Bool
  IncludePersonal : Bool
  ShowUncloned : Option Bool
  ShowDescription : Option Bool
deriving DecidableEq

/-- Cache file payload, from `model/github.go` (`GitHubCache`).  Time is
modelled as an integer number of minutes (the unit `cache.Set` uses). -/
structure GitHubCache where
  Repos : List GitHubRepo
  CachedAt : Int
  ExpiresAt : Int
deriving DecidableEq

/-- State of the on-disk cache file for one scope: absent, unreadable
(`os.ReadFile` fails), undecodable (`json.Unmarshal` fails), or a
successfully decoded `GitHubCache`.  Mirrors the case split of
`RealCache.Get` in `github/cache.go`. -/
inductive CacheFile where
  | good (entry : GitHubCache)
  | unreadable
  | corrupt
deriving DecidableEq

/-- The cache directory: one optional file per scope name. -/
def FS : Type := String → Option CacheFile

/-- Core of `RealCache.Get` (`github/cache.go` lines 30-56) acting on the
content of one file: missing, unreadable and undecodable files are
not-found, and a decoded entry is not-found when `time.Now().After
(cache.ExpiresAt)`, i.e. strictly after expiry.  Returns the Go pair
`([]model.GitHubRepo, bool)` with `nil` rendered as `[]`. -/
def cacheGetFile (f : Option CacheFile) (now : Int) : List GitHubRepo × Bool :=
  match f with
  | none => ([], false)
  | some .unreadable => ([], false)
  | some .corrupt => ([], false)
  | some (.good entry) => if entry.ExpiresAt < now then ([], false) else (entry.Repos, true)

/-- `RealCache.Get`: read the scope's file from the cache directory. -/
def Cache.Get (fs : FS) (now : Int) (org : String) : List GitHubRepo × Bool :=
  cacheGetFile (fs org) now

/-- `RealCache.Set` (`github/cache.go` lines 58-86): on success, overwrite
the scope's file with `{repos, cached_at = now, expires_at = now + timeout}`;
`ok` abstracts the `MkdirAll`/`WriteFile` outcome — on failure the function
logs and returns with the filesystem unchanged. -/
def Cache.Set (ok : Bool) (fs : FS) (now : Int) (org : String)
    (repos : List GitHubRepo) (timeout : Int) : FS :=
  if ok then
    fun o => if o = org then
      some (.good { Repos := repos, CachedAt := now, ExpiresAt := now + timeout })
    else fs o
  else fs

/-- A sample repository record used by concrete witnesses. -/
def sampleRepo : GitHubRepo :=
  { ID := 1, Name := "widgets", FullName := "acme/widgets", Description := ""
    CloneURL := "https://github.com/acme/widgets.git"
    SSHURL := "git@github.com:acme/widgets.git"
    HTMLURL := "https://github.com/acme/widgets"
    Private := false, Fork := false, Archived := false, Disabled := false
    Language := "go", UpdatedAt := "", PushedAt := "", Topics := [] }

/-! ## Shorthand resolver (`github/shorthand.go`)

The two compiled patterns are

  githubShorthandRegex = `^([a-zA-Z0-9._-]+)/([a-zA-Z0-9._-]+)$`
  githubURLRegex = `^(?:https?://)?(?:www\.)?github\.com/([a-zA-Z0-9._-]+)/([a-zA-Z0-9._-]+)(?:\.git)?/?$`

Go's `regexp` finds the leftmost-first match (the match a backtracking
engine with greedy quantifiers would find).  Both patterns are anchored,
so matching is rendered as a deterministic backtracking matcher:
each alternative is tried in the engine's preference order via `<|>`,
and each greedy `[...]+` capture group tries the longest run of class
characters first, retreating one character at a time. -/

/-- The character class `[a-zA-Z0-9._-]` of both patterns. -/
def ghNameChar (c : Char) : Bool :=
  c.isAlphanum || c == '.' || c == '_' || c == '-'

/-- Match a literal at the head of the input and return the rest. -/
def dropLit : List Char → List Char → Option (List Char)
  | [], s => some s
  | _ :: _, [] => none
  | c :: cs, d :: ds => if c = d then dropLit cs ds else none

/-- Backtracking over the length of a greedy `[...]+` group: try the
capture `run.take n` (with the rest `s.drop n`) for `n` descending. -/
def tryLens {α : Type} (k : List Char → List Char → Option α)
    (run s : List Char) : Nat → Option α
  | 0 => none
  | n + 1 => k (run.take (n + 1)) (s.drop (n + 1)) <|> tryLens k run s n

/-- Greedy `([class]+)` capture group with continuation `k`: the run of
class characters is consumed greedily, longest attempt first. -/
def greedyPlus {α : Type} (f : Char → Bool) (s : List Char)
    (k : List Char → List Char → Option α) : Option α :=
  tryLens k (s.takeWhile f) s (s.takeWhile f).length

/-- `githubShorthandRegex` as a submatch extractor: `^([cls]+)/([cls]+)$`. -/
def shorthandFindSub (s : List Char) : Option (List Char × List Char) :=
  greedyPlus ghNameChar s fun a rest =>
    (dropLit ['/'] rest).bind fun r2 =>
      greedyPlus ghNameChar r2 fun b r3 =>
        if r3 = [] then some (a, b) else none

/-- Trailing `/?$` of the URL pattern (`/` preferred over empty). -/
def urlSlash (a b r : List Char) : Option (List Char × List Char) :=
  ((dropLit ['/'] r).bind fun r2 => if r2 = [] then some (a, b) else none) <|>
    (if r = [] then some (a, b) else none)

/-- Trailing `(?:\.git)?/?$` of the URL pattern (`.git` preferred). -/
def urlTail (a b r : List Char) : Option (List Char × List Char) :=
  ((dropLit ".git".data r).bind fun r2 => urlSlash a b r2) <|> urlSlash a b r

/-- `github\.com/([cls]+)/([cls]+)(?:\.git)?/?$` part of the URL pattern. -/
def urlCore (u : List Char) : Option (List Char × List Char) :=
  (dropLit "github.com/".data u).bind fun v =>
    greedyPlus ghNameChar v fun a rest =>
      (dropLit ['/'] rest).bind fun r2 =>
        greedyPlus ghNameChar r2 fun b r3 => urlTail a b r3

/-- `(?:www\.)?` part of the URL pattern (`www.` preferred over empty). -/
def urlWWW (t : List Char) : Option (List Char × List Char) :=
  ((dropLit "www.".data t).bind urlCore) <|> urlCore t

/-- `githubURLRegex` as a submatch extractor; the optional scheme tries
`https://`, then `http://`, then nothing. -/
def urlFindSub (s : List Char) : Option (List Char × List Char) :=
  ((dropLit "https://".data s).bind urlWWW) <|>
    (((dropLit "http://".data s).bind urlWWW) <|> urlWWW s)

/-- `ExtractOrgAndRepo` core (`github/shorthand.go` lines 59-71): try the
shorthand pattern first, then the URL pattern. -/
def extractL (s : List Char) : Option (List Char × List Char) :=
  match shorthandFindSub s with
  | some p => some p
  | none => urlFindSub s

/-- `RealShorthandConverter.ExtractOrgAndRepo`; `none` is the
`invalid GitHub shorthand format` error. -/
def ExtractOrgAndRepo (input : String) : Option (String × String) :=
  (extractL input.data).map fun p => (String.mk p.1, String.mk p.2)

/-- `RealShorthandConverter.IsGitHubShorthand` (`github/shorthand.go`
lines 30-42): true when either pattern matches. -/
def IsGitHubShorthand (input : String) : Bool :=
  (shorthandFindSub input.data).isSome || (urlFindSub input.data).isSome

/-- `RealShorthandConverter.ConvertToURL` (`github/shorthand.go` lines
44-56): extract, then build the SSH or HTTPS clone URL. -/
def ConvertToURL (input : String) (config : GitHubConfig) : Option String :=
  (ExtractOrgAndRepo input).map fun p =>
    if config.UseSSH then "git@github.com:" ++ p.1 ++ "/" ++ p.2 ++ ".git"
    else "https://github.com/" ++ p.1 ++ "/" ++ p.2 ++ ".git"

/-- A configuration with all defaults and `use_ssh = false`. -/
def cfgHTTPS : GitHubConfig :=
  { Organization := "", Organizations := [], Token := "", CacheTimeout := 0
    CloneDir := "", UseSSH := false, IncludePersonal := false
    ShowUncloned := none, ShowDescription := none }

/-! ## Configuration accessors (`model/github.go`) -/

/-- `GitHubConfig.GetOrganizations` (`model/github.go` lines 52-78): the
new-format scope list, with the legacy single organization appended (with
itself as display name and the global token) when it is nonempty and no
listed scope already carries its name. -/
def GitHubConfig.GetOrganizations (c : GitHubConfig) : List GitHubOrgConfig :=
  if c.Organization ≠ "" then
    if c.Organizations.any (fun o => o.Name == c.Organization) then c.Organizations
    else c.Organizations ++
      [{ Name := c.Organization, DisplayName := c.Organization, Token := c.Token }]
  else c.Organizations

/-- `GitHubConfig.GetTokenForOrg` (`model/github.go` lines 81-96): first
listed scope with a matching name and nonempty token, else the global
token, else the `GITHUB_TOKEN` environment variable (`env`). -/
def GitHubConfig.GetTokenForOrg (c : GitHubConfig) (env : String) (orgName : String) : String :=
  match c.Organizations.find? (fun o => o.Name == orgName && o.Token != "") with
  | some o => o.Token
  | none => if c.Token ≠ "" then c.Token else env

/-- `GitHubConfig.ShouldShowDescription` (`model/github.go`): nil defaults
to true. -/
def GitHubConfig.ShouldShowDescription (c : GitHubConfig) : Bool :=
  match c.ShowDescription with
  | none => true
  | some b => b

/-- `GitHubConfig.ShouldShowUncloned` (`model/github.go`): nil defaults
to true. -/
def GitHubConfig.ShouldShowUncloned (c : GitHubConfig) : Bool :=
  match c.ShowUncloned with
  | none => true
  | some b => b

/-- A configuration whose legacy organization `acme` is already present —
twice — in the new scope list. -/
def cfgDupLegacy : GitHubConfig :=
  { cfgHTTPS with
    Organization := "acme"
    Organizations := [⟨"acme", "", ""⟩, ⟨"acme", "", ""⟩] }

/-- A legacy configuration whose organization is absent from the list. -/
def cfgLegacyAbsent : GitHubConfig :=
  { cfgHTTPS with Organization := "acme", Organizations := [⟨"beta", "", ""⟩] }

/-! ## Multi-scope repository adapter (`lister/github.go` lines 57-165)

The Go map `map[string][]model.GitHubRepo` is rendered as an insertion-
ordered association list with overwrite-on-set lookup semantics; the
GitHub client is an oracle record of endpoint functions returning
`Except`, with Go error strings as the error type (the 404 check in the
source is a substring test on the error message). -/

/-- The `map[string][]model.GitHubRepo` result. -/
abbrev AssocMap := List (String × List GitHubRepo)

/-- Go map assignment `m[k] = v`. -/
def mset : AssocMap → String → List GitHubRepo → AssocMap
  | [], k, v => [(k, v)]
  | (k', v') :: t, k, v => if k' = k then (k, v) :: t else (k', v') :: mset t k v

/-- Go map lookup `m[k]`. -/
def mget : AssocMap → String → Option (List GitHubRepo)
  | [], _ => none
  | (k', v') :: t, k => if k' = k then some v' else mget t k

/-- The GitHub client interface (`github/client.go`), as endpoint
oracles. -/
structure ClientOps where
  ListOrgReposWithToken : String → String → Except String (List GitHubRepo)
  ListUserReposWithToken : String → String → Except String (List GitHubRepo)
  ListAuthenticatedUserReposWithToken : String → Except String (List GitHubRepo)
  GetAuthenticatedUsername : String → Except String String

/-- One API call made by the adapter, for tracing endpoint dispatch. -/
inductive ApiCall where
  | org (name token : String)
  | user (name token : String)
deriving DecidableEq

/-- Whether `needle` is a leading fragment of `hay`. -/
def startsLit : List Char → List Char → Bool
  | [], _ => true
  | _ :: _, [] => false
  | c :: cs, d :: ds => c == d && startsLit cs ds

/-- Substring test, as `strings.Contains` does it. -/
def containsLit (needle : List Char) : List Char → Bool
  | [] => needle.isEmpty
  | d :: ds => startsLit needle (d :: ds) || containsLit needle ds

/-- `strings.Contains(err.Error(), "404")` from `lister/github.go` line 83. -/
def contains404 (e : String) : Bool := containsLit "404".data e.data

/-- Lines 80-95 of `lister/github.go`: fetch a scope via the organization
endpoint; if the error message contains `404`, retry the same scope and
token via the user endpoint.  Also returns the list of endpoint calls
made, in order. -/
def fetchScope (cl : ClientOps) (name token : String) :
    Except String (List GitHubRepo) × List ApiCall :=
  match cl.ListOrgReposWithToken name token with
  | .ok repos => (.ok repos, [.org name token])
  | .error e =>
    if contains404 e then
      (cl.ListUserReposWithToken name token, [.org name token, .user name token])
    else (.error e, [.org name token])

/-- One iteration of the scope loop of `ListAllReposWithRefresh`
(`lister/github.go` lines 61-105): cache hit (unless refreshing) short-
circuits; otherwise fetch, and on success cache (default timeout 30) and
record; on failure `continue` with everything unchanged.  `wr` tells
whether the cache write for a scope succeeds. -/
def processOrg (cl : ClientOps) (cfg : GitHubConfig) (env : String) (wr : String → Bool)
    (now : Int) (refresh : Bool) (acc : AssocMap × FS) (oc : GitHubOrgConfig) :
    AssocMap × FS :=
  if !refresh && (Cache.Get acc.2 now oc.Name).2 then
    (mset acc.1 oc.Name (Cache.Get acc.2 now oc.Name).1, acc.2)
  else
    match (fetchScope cl oc.Name (cfg.GetTokenForOrg env oc.Name)).1 with
    | .error _ => acc
    | .ok repos =>
      let t := if cfg.CacheTimeout = 0 then 30 else cfg.CacheTimeout
      (mset acc.1 oc.Name repos, Cache.Set (wr oc.Name) acc.2 now oc.Name repos t)

/-- The personal-repos block of `ListAllReposWithRefresh` (`lister/github.go`
lines 107-152): when enabled and a token resolves, look up the
authenticated username and cache/fetch its repos the same way. -/
def personalPass (cl : ClientOps) (cfg : GitHubConfig) (env : String) (wr : String → Bool)
    (now : Int) (refresh : Bool) (acc : AssocMap × FS) : AssocMap × FS :=
  if cfg.IncludePersonal then
    if cfg.GetTokenForOrg env "" ≠ "" then
      match cl.GetAuthenticatedUsername (cfg.GetTokenForOrg env "") with
      | .error _ => acc
      | .ok username =>
        if !refresh then
          if (Cache.Get acc.2 now username).2 then
            (mset acc.1 username (Cache.Get acc.2 now username).1, acc.2)
          else
            match cl.ListAuthenticatedUserReposWithToken (cfg.GetTokenForOrg env "") with
            | .error _ => acc
            | .ok prs =>
              let t := if cfg.CacheTimeout = 0 then 30 else cfg.CacheTimeout
              (mset acc.1 username prs, Cache.Set (wr username) acc.2 now username prs t)
        else
          match cl.ListAuthenticatedUserReposWithToken (cfg.GetTokenForOrg env "") with
          | .error _ => acc
          | .ok prs =>
            let t := if cfg.CacheTimeout = 0 then 30 else cfg.CacheTimeout
            (mset acc.1 username prs, Cache.Set (wr username) acc.2 now username prs t)
    else acc
  else acc

/-- `RealGitHub.ListAllReposWithRefresh` (`lister/github.go` lines 57-155):
resolve the scope list, run the scope loop, then the personal-repos
block.  Returns the result map and the final cache state; the Go error
return is always nil. -/
def ListAllReposWithRefresh (cl : ClientOps) (cfg : GitHubConfig) (env : String)
    (wr : String → Bool) (fs : FS) (now : Int) (refresh : Bool) : AssocMap × FS :=
  personalPass cl cfg env wr now refresh
    (cfg.GetOrganizations.foldl (processOrg cl cfg env wr now refresh) ([], fs))

/-- The key/value pair the personal-repos block inserts into the result
map (`none` when it inserts nothing), as a function of the cache state it
runs against. -/
def personalIns (cl : ClientOps) (cfg : GitHubConfig) (env : String) (fs2 : FS)
    (now : Int) (refresh : Bool) : Option (String × List GitHubRepo) :=
  if cfg.IncludePersonal then
    if cfg.GetTokenForOrg env "" ≠ "" then
      match cl.GetAuthenticatedUsername (cfg.GetTokenForOrg env "") with
      | .error _ => none
      | .ok username =>
        if !refresh then
          if (Cache.Get fs2 now username).2 then
            some (username, (Cache.Get fs2 now username).1)
          else
            match cl.ListAuthenticatedUserReposWithToken (cfg.GetTokenForOrg env "") with
            | .error _ => none
            | .ok prs => some (username, prs)
        else
          match cl.ListAuthenticatedUserReposWithToken (cfg.GetTokenForOrg env "") with
          | .error _ => none
          | .ok prs => some (username, prs)
    else none
  else none

/-- The per-scope outcome of one loop iteration as a function of the cache
state at that iteration: the cached list on a non-refresh hit, the fetched
list on fetch success, nothing when the fetch fails. -/
def scopeOutcome (cl : ClientOps) (cfg : GitHubConfig) (env : String) (fs : FS)
    (now : Int) (refresh : Bool) (oc : GitHubOrgConfig) : Option (List GitHubRepo) :=
  if !refresh && (Cache.Get fs now oc.Name).2 then some (Cache.Get fs now oc.Name).1
  else
    match (fetchScope cl oc.Name (cfg.GetTokenForOrg env oc.Name)).1 with
    | .ok repos => some repos
    | .error _ => none

/-- A client whose organization endpoint reports 404 and whose user
endpoint succeeds. -/
def cl404 : ClientOps :=
  { ListOrgReposWithToken := fun _ _ => .error "GET /orgs: 404 Not Found"
    ListUserReposWithToken := fun _ _ => .ok [sampleRepo]
    ListAuthenticatedUserReposWithToken := fun _ => .error "unused"
    GetAuthenticatedUsername := fun _ => .error "unused" }

/-- A client for the C1 counterexample: scope `alpha` fetches fine, any
other org fetch fails with a non-404 error, the user endpoint fails, and
the authenticated user is `bob` with personal repos available. -/
def clC1 : ClientOps :=
  { ListOrgReposWithToken := fun org _ => if org = "alpha" then .ok [sampleRepo] else .error "boom"
    ListUserReposWithToken := fun _ _ => .error "boom"
    ListAuthenticatedUserReposWithToken := fun _ => .ok [sampleRepo]
    GetAuthenticatedUsername := fun _ => .ok "bob" }

/-- Scopes `alpha` and `bob`, personal-repo inclusion enabled, global
token `t`. -/
def cfgC1 : GitHubConfig :=
  { cfgHTTPS with
    Organizations := [⟨"alpha", "", ""⟩, ⟨"bob", "", ""⟩]
    Token := "t"
    IncludePersonal := true }

/-- A client for the C1 witness: scope `alpha` fetches fine, scope `beta`
fails on both endpoints with a non-404 error. -/
def clC1w : ClientOps :=
  { ListOrgReposWithToken := fun org _ => if org = "alpha" then .ok [sampleRepo] else .error "boom"
    ListUserReposWithToken := fun _ _ => .error "boom"
    ListAuthenticatedUserReposWithToken := fun _ => .error "unused"
    GetAuthenticatedUsername := fun _ => .error "unused" }

/-- Scopes `alpha` and `beta`, no personal inclusion. -/
def cfgC1w : GitHubConfig :=
  { cfgHTTPS with Organizations := [⟨"alpha", "", ""⟩, ⟨"beta", "", ""⟩] }

/-! ## GitHub branch of the Lister (`lister/github.go` lines 167-343) -/

/-- A catalog session.  Modelled from the spec: `model.SeshSession` is not
among the provided sources; the fields are the ones the GitHub lister and
connector read or write (spec §3 "Session": source tag, display name,
path, optional startup command). -/
structure SeshSession where
  Src : String
  Name : String
  Path : String
  StartupCommand : String
deriving DecidableEq

/-- The merged catalog.  Modelled from the spec: `model.SeshSessions` is
not among the provided sources; `Directory` is the Go map rendered as an
association list with overwrite-on-set semantics and `OrderedIndex` the
parallel key order (spec §3 "SessionCatalog"). -/
structure SeshSessions where
  Directory : List (String × SeshSession)
  OrderedIndex : List String
deriving DecidableEq

/-- Go map assignment `directory[key] = session`. -/
def dset : List (String × SeshSession) → String → SeshSession → List (String × SeshSession)
  | [], k, v => [(k, v)]
  | (k', v') :: t, k, v => if k' = k then (k, v) :: t else (k', v') :: dset t k v

/-- Go map lookup `directory[key]`. -/
def dget : List (String × SeshSession) → String → Option SeshSession
  | [], _ => none
  | (k', v') :: t, k => if k' = k then some v' else dget t k

/-- `strings.Contains`. -/
def strContains (s sub : String) : Bool := containsLit sub.data s.data

/-- Processing of one fetched repo inside the scope loop of `listGitHub`
(`lister/github.go` lines 194-261; the personal block at lines 271-333 is
the same code with the username as scope and display name).  Skips
archived/disabled repos and — when the clone target does not exist
locally — uncloned repos if `show_uncloned` is disabled; otherwise yields
the `github:<scope>/<repo>` key and the session (with clone startup
command and target path when not yet cloned).  `filepath.Join`'s path
cleaning is simplified to `/`-concatenation, and `statExists` stands for
`os.Stat` succeeding on the clone path. -/
def ghDisplay (cfg : GitHubConfig) (displayName : String) (repo : GitHubRepo) : String :=
  if repo.Description ≠ "" && cfg.ShouldShowDescription then
    displayName ++ "/" ++ repo.Name ++ " (" ++ repo.Description ++ ")"
  else displayName ++ "/" ++ repo.Name

/-- The local clone target `<cloneDir>/github.com/<scope>/<repo>` with the
configured clone dir (default `<home>/git`, `~/` expanded). -/
def ghClonePath (cfg : GitHubConfig) (homeDir scopeName repoName : String) : String :=
  (if cfg.CloneDir = "" then homeDir ++ "/git"
   else if startsLit "~/".data cfg.CloneDir.data then
     homeDir ++ "/" ++ String.mk (cfg.CloneDir.data.drop 2)
   else cfg.CloneDir) ++ "/github.com/" ++ scopeName ++ "/" ++ repoName

/-- The session `path` local: the clone target if already cloned, else the
SSH or HTTPS clone URL. -/
def ghRepoPath (cfg : GitHubConfig) (homeDir : String) (statExists : String → Bool)
    (scopeName : String) (repo : GitHubRepo) : String :=
  if statExists (ghClonePath cfg homeDir scopeName repo.Name) then
    ghClonePath cfg homeDir scopeName repo.Name
  else if cfg.UseSSH then repo.SSHURL else repo.CloneURL

def repoAccept (cfg : GitHubConfig) (homeDir : String) (statExists : String → Bool)
    (scopeName displayName : String) (repo : GitHubRepo) : Option (String × SeshSession) :=
  if repo.Archived || repo.Disabled then none
  else if !statExists (ghClonePath cfg homeDir scopeName repo.Name) &&
      !cfg.ShouldShowUncloned then none
  else
    some ("github:" ++ scopeName ++ "/" ++ repo.Name,
      if statExists (ghClonePath cfg homeDir scopeName repo.Name) then
        { Src := "github", Name := ghDisplay cfg displayName repo,
          Path := ghRepoPath cfg homeDir statExists scopeName repo, StartupCommand := "" }
      else
        { Src := "github", Name := ghDisplay cfg displayName repo,
          Path := ghClonePath cfg homeDir scopeName repo.Name,
          StartupCommand :=
            "git clone " ++ ghRepoPath cfg homeDir statExists scopeName repo ++ " " ++
              ghClonePath cfg homeDir scopeName repo.Name ++ " && cd " ++
              ghClonePath cfg homeDir scopeName repo.Name })

/-- One loop step: append the key and insert the session when the repo is
accepted. -/
def repoStep (cfg : GitHubConfig) (homeDir : String) (statExists : String → Bool)
    (scopeName displayName : String)
    (acc : List String × List (String × SeshSession)) (repo : GitHubRepo) :
    List String × List (String × SeshSession) :=
  match repoAccept cfg homeDir statExists scopeName displayName repo with
  | none => acc
  | some (key, sess) => (acc.1 ++ [key], dset acc.2 key sess)

/-- The inner `for _, repo := range repos` loop. -/
def processRepos (cfg : GitHubConfig) (homeDir : String) (statExists : String → Bool)
    (scopeName displayName : String)
    (acc : List String × List (String × SeshSession)) (repos : List GitHubRepo) :
    List String × List (String × SeshSession) :=
  repos.foldl (repoStep cfg homeDir statExists scopeName displayName) acc

/-- One step of the outer `for _, orgConfig := range orgs` loop
(`lister/github.go` lines 188-262): scopes absent from the fetched map are
skipped; the display name falls back to the scope name. -/
def orgRepoStep (cfg : GitHubConfig) (homeDir : String) (statExists : String → Bool)
    (allRepos : AssocMap) (acc : List String × List (String × SeshSession))
    (oc : GitHubOrgConfig) : List String × List (String × SeshSession) :=
  match mget allRepos oc.Name with
  | none => acc
  | some repos =>
    processRepos cfg homeDir statExists oc.Name
      (if oc.DisplayName = "" then oc.Name else oc.DisplayName) acc repos

/-- The personal-repos block of `listGitHub` (`lister/github.go` lines
264-337): with inclusion enabled, a resolvable token and a resolvable
username, process `allRepos[username]` with the username as scope and
display name. -/
def personalRepoPass (cfg : GitHubConfig) (homeDir : String) (statExists : String → Bool)
    (allRepos : AssocMap) (authUser : Except String String) (env : String)
    (acc1 : List String × List (String × SeshSession)) :
    List String × List (String × SeshSession) :=
  if cfg.IncludePersonal then
    if cfg.GetTokenForOrg env "" ≠ "" then
      match authUser with
      | .error _ => acc1
      | .ok username =>
        match mget allRepos username with
        | none => acc1
        | some prs => processRepos cfg homeDir statExists username username acc1 prs
    else acc1
  else acc1

/-- `listGitHub` (`lister/github.go` lines 167-343), parametrized by the
fetched map `allRepos` (the result of `ListAllReposWithRefresh`, whose
error return is always nil), the home directory, the `os.Stat` oracle and
the authenticated-username lookup used by the personal block. -/
def listGitHub (cfg : GitHubConfig) (homeDir : String) (statExists : String → Bool)
    (allRepos : AssocMap) (authUser : Except String String) (env : String) : SeshSessions :=
  if cfg.GetOrganizations.length = 0 then { Directory := [], OrderedIndex := [] }
  else
    let acc2 := personalRepoPass cfg homeDir statExists allRepos authUser env
      (cfg.GetOrganizations.foldl (orgRepoStep cfg homeDir statExists allRepos) ([], []))
    { Directory := acc2.2, OrderedIndex := acc2.1 }

/-- Whether a catalog key can originate from a non-archived, non-disabled
repo of the fetched map (used to state C7). -/
def keyFromActive (allRepos : AssocMap) (k : String) : Bool :=
  allRepos.any fun p =>
    p.2.any fun r => !r.Archived && !r.Disabled && (k == "github:" ++ p.1 ++ "/" ++ r.Name)

/-- An archived repo alongside a live one, for the C7 witness. -/
def archivedRepo : GitHubRepo :=
  { sampleRepo with Name := "oldtool", Archived := true }

/-- A configuration with the single scope `acme`. -/
def cfgAcme : GitHubConfig :=
  { cfgHTTPS with Organizations := [⟨"acme", "", ""⟩] }

/-- The OrderedIndex/Directory synchronization invariant of the catalog
accumulator: the index and the directory key set agree, and the directory
holds each key at most once. -/
def IndexDirInv (acc : List String × List (String × SeshSession)) : Prop :=
  (∀ k, k ∈ acc.1 ↔ (dget acc.2 k).isSome) ∧ (acc.2.map Prod.fst).Nodup

/-! ## Connector GitHub strategy (`connector/github.go`, src/unnamed/part_000) -/

/-- A connector result.  Modelled from the spec: `model.Connection` is not
among the provided sources; the fields are the ones `githubStrategy`
sets (found flag, resolved session, "new" flag, register-in-recency-index
flag — `AddToZoxide` in the source). -/
structure Connection where
  Found : Bool
  Session : SeshSession
  New : Bool
  AddToZoxide : Bool
deriving DecidableEq

/-- The zero `model.SeshSession` of `model.Connection{Found: false}`. -/
def emptySession : SeshSession :=
  { Src := "", Name := "", Path := "", StartupCommand := "" }

/-- `strings.Split(s, " ")` on characters: split at every single space,
keeping empty fragments. -/
def splitCh : List Char → List (List Char)
  | [] => [[]]
  | c :: cs =>
    match splitCh cs with
    | [] => [[c]]
    | h :: t => if c = ' ' then [] :: h :: t else (c :: h) :: t

/-- `strings.Split(s, " ")`. -/
def splitSpace (s : String) : List String := (splitCh s.data).map String.mk

/-- `filepath.Base`: the part after the last `/` (the input itself when it
has none).  Path cleaning of the Go original is omitted. -/
def baseName (p : String) : String :=
  if p.data.contains '/' then
    String.mk (p.data.reverse.takeWhile (fun c => !(c == '/'))).reverse
  else p

/-- `filepath.Dir`: the part before the last `/` (`.` when there is
none).  Path cleaning of the Go original is omitted. -/
def dirName (p : String) : String :=
  if p.data.contains '/' then
    String.mk ((p.data.reverse.dropWhile (fun c => !(c == '/'))).drop 1).reverse
  else "."

/-- The connector's collaborators as oracles: the session lookup
(`lister.FindGitHubSession`), `os.Stat` on the clone target, `os.MkdirAll`
on its parent, and `git.Clone(url, parentDir, leafName)`. -/
structure ConnEnv where
  find : String → Option SeshSession
  statExists : String → Bool
  mkdirOk : String → Bool
  cloneOk : String → String → String → Except String Unit

/-- `githubStrategy` (`connector/github.go` lines 12-54): look the name up
among GitHub sessions; when the matched session carries a `git clone`
startup command, parse it positionally, ensure the parent directory,
clone only when the target does not exist, then return the session
rewritten to the clone target with the startup command cleared; every
found session is flagged new and register-in-recency-index.  The second
component lists the `git.Clone` invocations made. -/
def githubStrategy (e : ConnEnv) (name : String) :
    Except String (Connection × List (String × String × String)) :=
  match e.find name with
  | none =>
    .ok ({ Found := false
           Session := emptySession
           New := false
           AddToZoxide := false }, [])
  | some session =>
    if (session.StartupCommand != "" && strContains session.StartupCommand "git clone") then
      match splitSpace session.StartupCommand with
      | p0 :: p1 :: repoURL :: clonePath :: _ =>
        if (p0 == "git" && p1 == "clone") then
          if e.mkdirOk (dirName clonePath) then
            if e.statExists clonePath then
              .ok ({ Found := true
                     Session := { session with Path := clonePath, StartupCommand := "" }
                     New := true
                     AddToZoxide := true }, [])
            else
              match e.cloneOk repoURL (dirName clonePath) (baseName clonePath) with
              | .error err => .error ("failed to clone repository: " ++ err)
              | .ok _ =>
                .ok ({ Found := true
                       Session := { session with Path := clonePath, StartupCommand := "" }
                       New := true
                       AddToZoxide := true },
                  [(repoURL, dirName clonePath, baseName clonePath)])
          else .error "failed to create parent directory"
        else .ok ({ Found := true, Session := session, New := true, AddToZoxide := true }, [])
      | _ => .ok ({ Found := true, Session := session, New := true, AddToZoxide := true }, [])
    else .ok ({ Found := true, Session := session, New := true, AddToZoxide := true }, [])

/-- The un-cloned `acme/widgets` session of the C4 witness. -/
def sessC4 : SeshSession :=
  { Src := "github"
    Name := "acme/widgets"
    Path := "https://github.com/acme/widgets.git"
    StartupCommand := "git clone https://github.com/acme/widgets.git /home/u/git/github.com/acme/widgets && cd /home/u/git/github.com/acme/widgets" }

/-- A connector environment where nothing is cloned yet and every
filesystem operation succeeds. -/
def envC4 : ConnEnv :=
  { find := fun n => if n = "acme/widgets" then some sessC4 else none
    statExists := fun _ => false
    mkdirOk := fun _ => true
    cloneOk := fun _ _ _ => .ok () }

/-- The connection the C4 witness resolution returns. -/
def connC4 : Connection :=
  { Found := true
    Session := { sessC4 with Path := "/home/u/git/github.com/acme/widgets"
                             StartupCommand := "" }
    New := true
    AddToZoxide := true }

/-- C2: a cache `Get` strictly after the stored `expires_at` returns
not-found even though a well-formed file exists; a missing, unreadable or
undecodable file likewise returns not-found.  (The Go `Get` has no error
return at all — every failure mode degrades to `(nil, false)`.) -/
theorem c2_cache_get_notfound (fs : FS) (now : Int) (org : String) :
    (fs org = none → Cache.Get fs now org = ([], false)) ∧
    (fs org = some .unreadable → Cache.Get fs now org = ([], false)) ∧
    (fs org = some .corrupt → Cache.Get fs now org = ([], false)) ∧
    (∀ entry : GitHubCache, fs org = some (.good entry) → entry.ExpiresAt < now →
      Cache.Get fs now org = ([], false)) := by
  refine ⟨?_, ?_, ?_, ?_⟩ <;> intros <;>
    simp_all [Cache.Get, cacheGetFile]

/-- Witness for C2: a file that expired at minute 10, read at minute 11,
is a cache miss. -/
theorem c2_cache_get_notfound_witness :
    Cache.Get (fun _ => some (.good { Repos := [sampleRepo], CachedAt := 0, ExpiresAt := 10 }))
      11 "acme" = ([], false) :=
  (c2_cache_get_notfound
      (fun _ => some (.good { Repos := [sampleRepo], CachedAt := 0, ExpiresAt := 10 }))
      11 "acme").2.2.2
    { Repos := [sampleRepo], CachedAt := 0, ExpiresAt := 10 } rfl (by decide)

/-- C3: a successful `Set` with a positive timeout followed by a `Get` of
the same scope at any time not later than the expiry returns `found = true`
and exactly the stored repo sequence. -/
theorem c3_cache_roundtrip (fs : FS) (now : Int) (org : String)
    (repos : List GitHubRepo) (timeout : Int) (now' : Int)
    (hpos : 0 < timeout) (hbefore : now' ≤ now + timeout) :
    Cache.Get (Cache.Set true fs now org repos timeout) now' org = (repos, true) := by
  have hne : ¬ (now + timeout < now') := not_lt.mpr hbefore
  simp [Cache.Get, Cache.Set, cacheGetFile, hne]

/-- Witness for C3: set at minute 0 with a 30-minute timeout, get at
minute 0. -/
theorem c3_cache_roundtrip_witness :
    Cache.Get (Cache.Set true (fun _ => none) 0 "acme" [sampleRepo] 30) 0 "acme"
      = ([sampleRepo], true) :=
  c3_cache_roundtrip (fun _ => none) 0 "acme" [sampleRepo] 30 0 (by decide) (by decide)

lemma dropLit_self (l s : List Char) : dropLit l (l ++ s) = some s := by
  induction l with
  | nil => rfl
  | cons c cs ih => simp [dropLit, ih]

lemma dropLit_eq_some (l : List Char) : ∀ s r : List Char,
    dropLit l s = some r → s = l ++ r := by
  induction l with
  | nil => intro s r h; simp [dropLit] at h; simp [h]
  | cons c cs ih =>
    intro s r h
    match s with
    | [] => exact absurd h (by simp [dropLit])
    | d :: ds =>
      rw [dropLit] at h
      split at h
      · next hcd => subst hcd; rw [ih ds r h]; rfl
      · exact absurd h (by simp)

lemma takeWhile_eq_of_append (f : Char → Bool) (a : List Char) (x : Char)
    (r : List Char) (ha : ∀ c ∈ a, f c = true) (hx : f x = false) :
    (a ++ x :: r).takeWhile f = a := by
  induction a with
  | nil => simp [List.takeWhile_cons, hx]
  | cons c cs ih =>
    have hc : f c = true := ha c (by simp)
    simp [List.takeWhile_cons, hc, ih (fun d hd => ha d (by simp [hd]))]

lemma takeWhile_eq_self (f : Char → Bool) (a : List Char)
    (ha : ∀ c ∈ a, f c = true) : a.takeWhile f = a := by
  induction a with
  | nil => rfl
  | cons c cs ih =>
    have hc : f c = true := ha c (by simp)
    simp [List.takeWhile_cons, hc, ih (fun d hd => ha d (by simp [hd]))]

lemma takeWhileLenLe (f : Char → Bool) (s : List Char) :
    (s.takeWhile f).length ≤ s.length := by
  induction s with
  | nil => simp
  | cons c cs ih =>
    by_cases h : f c <;> simp [List.takeWhile_cons, h] <;> omega

lemma take_takeWhile_eq_take (f : Char → Bool) (s : List Char) :
    ∀ i : Nat, i ≤ (s.takeWhile f).length → (s.takeWhile f).take i = s.take i := by
  induction s with
  | nil => simp
  | cons c cs ih =>
    intro i hi
    by_cases hc : f c
    · match i with
      | 0 => simp
      | j + 1 =>
        rw [List.takeWhile_cons, if_pos hc] at hi ⊢
        rw [List.take_succ_cons, List.take_succ_cons,
          ih j (by simpa using Nat.succ_le_succ_iff.mp (by simpa using hi))]
    · rw [List.takeWhile_cons, if_neg hc] at hi
      simp at hi
      simp [hi]

lemma tryLens_eq_some {α : Type} (k : List Char → List Char → Option α)
    (run s : List Char) (n : Nat) (v : α) (h : tryLens k run s n = some v) :
    ∃ i, 0 < i ∧ i ≤ n ∧ k (run.take i) (s.drop i) = some v := by
  induction n with
  | zero => simp [tryLens] at h
  | succ m ih =>
    rw [tryLens] at h
    cases hk : k (run.take (m + 1)) (s.drop (m + 1)) with
    | some w =>
      rw [hk, Option.some_orElse] at h
      exact ⟨m + 1, by omega, Nat.le_refl _, by rw [hk, h]⟩
    | none =>
      rw [hk, Option.none_orElse] at h
      obtain ⟨i, h1, h2, h3⟩ := ih h
      exact ⟨i, h1, by omega, h3⟩

lemma greedyPlus_intro {α : Type} (f : Char → Bool) (s : List Char)
    (k : List Char → List Char → Option α) (a : List Char) (v : α)
    (ha : s.takeWhile f = a) (hne : a ≠ []) (hk : k a (s.drop a.length) = some v) :
    greedyPlus f s k = some v := by
  unfold greedyPlus
  rw [ha]
  match a, hne with
  | c :: cs, _ =>
    rw [List.length_cons, tryLens, ← List.length_cons c cs, List.take_length,
      hk, Option.some_orElse]

lemma greedyPlus_elim {α : Type} (f : Char → Bool) (s : List Char)
    (k : List Char → List Char → Option α) (v : α) (h : greedyPlus f s k = some v) :
    ∃ i, 0 < i ∧ i ≤ (s.takeWhile f).length ∧
      k ((s.takeWhile f).take i) (s.drop i) = some v :=
  tryLens_eq_some k (s.takeWhile f) s (s.takeWhile f).length v h

lemma bindSomeEq {α β : Type} (x : α) (f : α → Option β) : (some x).bind f = f x := rfl

lemma bindNoneEq {α β : Type} (f : α → Option β) : (Option.none).bind f = none := rfl

lemma shorthand_of_parts (o r : List Char) (ho : o ≠ []) (hr : r ≠ [])
    (hco : ∀ c ∈ o, ghNameChar c = true) (hcr : ∀ c ∈ r, ghNameChar c = true) :
    shorthandFindSub (o ++ '/' :: r) = some (o, r) := by
  unfold shorthandFindSub
  apply greedyPlus_intro _ _ _ o _ (takeWhile_eq_of_append _ _ _ _ hco (by decide)) ho
  rw [List.drop_left, show dropLit ['/'] ('/' :: r) = some r from rfl, bindSomeEq]
  apply greedyPlus_intro _ _ _ r _ (takeWhile_eq_self _ _ hcr) hr
  rw [List.drop_length]
  rfl

lemma shorthand_sound (s a b : List Char) (h : shorthandFindSub s = some (a, b)) :
    s = a ++ '/' :: b ∧ (∀ c ∈ a, ghNameChar c = true) ∧ (∀ c ∈ b, ghNameChar c = true) := by
  obtain ⟨i, hi0, hile, hk⟩ := greedyPlus_elim _ _ _ _ h
  simp only [Option.bind_eq_some] at hk
  obtain ⟨r2, hdrop, hinner⟩ := hk
  have hs2 : s.drop i = '/' :: r2 := by simpa using dropLit_eq_some _ _ _ hdrop
  obtain ⟨j, hj0, hjle, hk2⟩ := greedyPlus_elim _ _ _ _ hinner
  have hd : r2.drop j = [] := by
    by_contra hd
    simp [hd] at hk2
  rw [if_pos hd] at hk2
  have hpair := Option.some.inj hk2
  have ha : (s.takeWhile ghNameChar).take i = a := congrArg Prod.fst hpair
  have hb : (r2.takeWhile ghNameChar).take j = b := congrArg Prod.snd hpair
  have hlen2 : r2.length ≤ j := List.drop_eq_nil_iff.mp hd
  have hb2 : b = r2 := by
    rw [← hb, take_takeWhile_eq_take _ _ j hjle, List.take_of_length_le hlen2]
  have ha2 : s.take i = a := by
    rw [← ha, take_takeWhile_eq_take _ _ i hile]
  refine ⟨?_, ?_, ?_⟩
  · calc s = s.take i ++ s.drop i := (List.take_append_drop i s).symm
    _ = a ++ '/' :: r2 := by rw [ha2, hs2]
    _ = a ++ '/' :: b := by rw [hb2]
  · intro c hc
    rw [← ha] at hc
    exact List.mem_takeWhile_imp (List.mem_of_mem_take hc)
  · intro c hc
    rw [← hb] at hc
    exact List.mem_takeWhile_imp (List.mem_of_mem_take hc)

lemma shorthand_none_of_badchar (s : List Char) (c : Char) (hc : c ∈ s)
    (h1 : ghNameChar c = false) (h2 : c ≠ '/') : shorthandFindSub s = none := by
  cases hopt : shorthandFindSub s with
  | none => rfl
  | some p =>
    obtain ⟨a, b⟩ := p
    obtain ⟨hs, hA, hB⟩ := shorthand_sound _ _ _ hopt
    subst hs
    rcases List.mem_append.mp hc with h | h
    · exact absurd (hA c h) (by simp [h1])
    · rcases List.mem_cons.mp h with h | h
      · exact absurd h h2
      · exact absurd (hB c h) (by simp [h1])

lemma url_of_parts (o r : List Char) (ho : o ≠ []) (hr : r ≠ [])
    (hco : ∀ c ∈ o, ghNameChar c = true) (hcr : ∀ c ∈ r, ghNameChar c = true) :
    urlFindSub ("https://github.com/".data ++ (o ++ '/' :: r)) = some (o, r) := by
  have hw : urlWWW ("github.com/".data ++ (o ++ '/' :: r)) = some (o, r) := by
    unfold urlWWW urlCore
    rw [show dropLit "www.".data ("github.com/".data ++ (o ++ '/' :: r)) = none from rfl,
      bindNoneEq, Option.none_orElse, dropLit_self, bindSomeEq]
    apply greedyPlus_intro _ _ _ o _ (takeWhile_eq_of_append _ _ _ _ hco (by decide)) ho
    rw [List.drop_left, show dropLit ['/'] ('/' :: r) = some r from rfl, bindSomeEq]
    apply greedyPlus_intro _ _ _ r _ (takeWhile_eq_self _ _ hcr) hr
    rw [List.drop_length]
    rfl
  unfold urlFindSub
  rw [show "https://github.com/".data ++ (o ++ '/' :: r)
      = "https://".data ++ ("github.com/".data ++ (o ++ '/' :: r)) by
    rw [show "https://github.com/".data = "https://".data ++ "github.com/".data by decide,
      List.append_assoc]]
  rw [dropLit_self, bindSomeEq, hw, Option.some_orElse]

lemma extractL_shorthand (o r : List Char) (ho : o ≠ []) (hr : r ≠ [])
    (hco : ∀ c ∈ o, ghNameChar c = true) (hcr : ∀ c ∈ r, ghNameChar c = true) :
    extractL (o ++ '/' :: r) = some (o, r) := by
  unfold extractL
  rw [shorthand_of_parts o r ho hr hco hcr]

lemma extractL_url (o r : List Char) (ho : o ≠ []) (hr : r ≠ [])
    (hco : ∀ c ∈ o, ghNameChar c = true) (hcr : ∀ c ∈ r, ghNameChar c = true) :
    extractL ("https://github.com/".data ++ (o ++ '/' :: r)) = some (o, r) := by
  unfold extractL
  rw [shorthand_none_of_badchar _ ':' (List.mem_append.mpr (Or.inl (by decide)))
    (by decide) (by decide)]
  exact url_of_parts o r ho hr hco hcr

lemma stringMkData (s : String) : String.mk s.data = s := by cases s; rfl

/-- C5: `ExtractOrgAndRepo` maps both the shorthand `acme/widgets` and the
URL `https://github.com/acme/widgets` to `("acme","widgets")`; in general,
for every nonempty owner and repo over the class `[a-zA-Z0-9._-]`, the bare
shorthand and the un-suffixed `github.com` URL extract to the same pair,
and an input matched by neither pattern yields the invalid-format error
(`none`). -/
theorem c5_extract_equivalence :
    (ExtractOrgAndRepo "acme/widgets" = some ("acme", "widgets")) ∧
    (ExtractOrgAndRepo "https://github.com/acme/widgets" = some ("acme", "widgets")) ∧
    (∀ o r : String, o.data ≠ [] → r.data ≠ [] →
      (∀ c ∈ o.data, ghNameChar c = true) → (∀ c ∈ r.data, ghNameChar c = true) →
      ExtractOrgAndRepo (o ++ "/" ++ r) = some (o, r) ∧
      ExtractOrgAndRepo ("https://github.com/" ++ o ++ "/" ++ r) = some (o, r)) ∧
    (∀ input : String, shorthandFindSub input.data = none → urlFindSub input.data = none →
      ExtractOrgAndRepo input = none) := by
  refine ⟨by decide, by decide, ?_, ?_⟩
  · intro o r ho hr hco hcr
    constructor
    · have hdata : (o ++ "/" ++ r).data = o.data ++ '/' :: r.data := by
        rw [String.data_append, String.data_append,
          show "/".data = ['/'] from rfl, List.append_assoc]
        rfl
      unfold ExtractOrgAndRepo
      rw [hdata, extractL_shorthand o.data r.data ho hr hco hcr]
      simp [stringMkData]
    · have hdata : ("https://github.com/" ++ o ++ "/" ++ r).data
          = "https://github.com/".data ++ (o.data ++ '/' :: r.data) := by
        rw [String.data_append, String.data_append, String.data_append,
          show "/".data = ['/'] from rfl]
        simp [List.append_assoc]
      unfold ExtractOrgAndRepo
      rw [hdata, extractL_url o.data r.data ho hr hco hcr]
      simp [stringMkData]
  · intro input h1 h2
    simp [ExtractOrgAndRepo, extractL, h1, h2]

/-- Witness for C5 at owner `acme`, repo `widgets`. -/
theorem c5_extract_equivalence_witness :
    ExtractOrgAndRepo ("acme" ++ "/" ++ "widgets") = some ("acme", "widgets") ∧
    ExtractOrgAndRepo ("https://github.com/" ++ "acme" ++ "/" ++ "widgets")
      = some ("acme", "widgets") :=
  c5_extract_equivalence.2.2.1 "acme" "widgets"
    (by decide) (by decide) (by decide) (by decide)

/-- C10: for every owner/repo over the class, `IsGitHubShorthand` accepts
the `.git`-suffixed URL, but the greedy repo capture group swallows the
`.git` suffix before the pattern's optional `(?:\.git)?` can match, so the
extracted repo still ends in `.git` and `ConvertToURL` appends another
`.git`, producing a clone URL ending in `.git.git`. -/
theorem c10_git_suffix_greedy (o r : String) (ho : o.data ≠ []) (hr : r.data ≠ [])
    (hco : ∀ c ∈ o.data, ghNameChar c = true) (hcr : ∀ c ∈ r.data, ghNameChar c = true) :
    IsGitHubShorthand ("https://github.com/" ++ o ++ "/" ++ r ++ ".git") = true ∧
    ExtractOrgAndRepo ("https://github.com/" ++ o ++ "/" ++ r ++ ".git")
      = some (o, r ++ ".git") ∧
    (∀ config : GitHubConfig, config.UseSSH = false →
      ConvertToURL ("https://github.com/" ++ o ++ "/" ++ r ++ ".git") config
        = some ("https://github.com/" ++ o ++ "/" ++ (r ++ ".git") ++ ".git")) ∧
    (∀ config : GitHubConfig, config.UseSSH = true →
      ConvertToURL ("https://github.com/" ++ o ++ "/" ++ r ++ ".git") config
        = some ("git@github.com:" ++ o ++ "/" ++ (r ++ ".git") ++ ".git")) := by
  have hrg : (r ++ ".git").data = r.data ++ ".git".data := String.data_append r ".git"
  have hrne : (r ++ ".git").data ≠ [] := by
    rw [hrg]
    intro hcontra
    exact hr (List.append_eq_nil.mp hcontra).1
  have hgit : ∀ c ∈ ".git".data, ghNameChar c = true := by decide
  have hcrg : ∀ c ∈ (r ++ ".git").data, ghNameChar c = true := by
    rw [hrg]
    intro c hc
    rcases List.mem_append.mp hc with h | h
    · exact hcr c h
    · exact hgit c h
  have hdata : ("https://github.com/" ++ o ++ "/" ++ r ++ ".git").data
      = "https://github.com/".data ++ (o.data ++ '/' :: (r ++ ".git").data) := by
    rw [String.data_append, String.data_append, String.data_append, hrg,
      show "/".data = ['/'] from rfl]
    simp [List.append_assoc]
  have hext : extractL ("https://github.com/" ++ o ++ "/" ++ r ++ ".git").data
      = some (o.data, (r ++ ".git").data) := by
    rw [hdata]
    exact extractL_url o.data (r ++ ".git").data ho hrne hco hcrg
  refine ⟨?_, ?_, ?_, ?_⟩
  · unfold IsGitHubShorthand
    rw [hdata,
      shorthand_none_of_badchar _ ':' (List.mem_append.mpr (Or.inl (by decide)))
        (by decide) (by decide),
      url_of_parts o.data (r ++ ".git").data ho hrne hco hcrg]
    rfl
  · unfold ExtractOrgAndRepo
    rw [hext]
    simp [stringMkData]
    rw [show r.data ++ ['.', 'g', 'i', 't'] = (r ++ ".git").data from hrg.symm, stringMkData]
  · intro config hssh
    unfold ConvertToURL ExtractOrgAndRepo
    rw [hext]
    simp [hssh, stringMkData]
    rw [show r.data ++ ['.', 'g', 'i', 't'] = (r ++ ".git").data from hrg.symm, stringMkData]
  · intro config hssh
    unfold ConvertToURL ExtractOrgAndRepo
    rw [hext]
    simp [hssh, stringMkData]
    rw [show r.data ++ ['.', 'g', 'i', 't'] = (r ++ ".git").data from hrg.symm, stringMkData]

/-- Witness for C10 at owner `acme`, repo `widgets`. -/
theorem c10_git_suffix_greedy_witness :
    IsGitHubShorthand ("https://github.com/" ++ "acme" ++ "/" ++ "widgets" ++ ".git") = true ∧
    ExtractOrgAndRepo ("https://github.com/" ++ "acme" ++ "/" ++ "widgets" ++ ".git")
      = some ("acme", "widgets" ++ ".git") ∧
    ConvertToURL ("https://github.com/" ++ "acme" ++ "/" ++ "widgets" ++ ".git") cfgHTTPS
      = some ("https://github.com/" ++ "acme" ++ "/" ++ ("widgets" ++ ".git") ++ ".git") := by
  obtain ⟨h1, h2, h3, _⟩ := c10_git_suffix_greedy "acme" "widgets"
    (by decide) (by decide) (by decide) (by decide)
  exact ⟨h1, h2, h3 cfgHTTPS rfl⟩

/-- Counterexample to C6 as stated: a configuration whose legacy field
names a scope present in the new scope list, for which `GetOrganizations`
returns two entries with that name, not exactly one (the fold only avoids
appending a duplicate; it never dedups the list itself). -/
theorem c6_dedup_cex :
    cfgDupLegacy.Organization = "acme" ∧
    cfgDupLegacy.Organizations.any (fun o => o.Name == "acme") = true ∧
    cfgDupLegacy.GetOrganizations.countP (fun o => o.Name == "acme") = 2 := by
  decide

/-- C6 (amended): when the legacy name is already present (by name) in the
scope list, `GetOrganizations` returns the scope list unchanged — so it
contains that name exactly as often as the list itself does (exactly once
whenever the list lists it once); when the legacy name is absent, it is
appended exactly once, with itself as display name and the global token. -/
theorem c6_dedup_amended (c : GitHubConfig) (h : c.Organization ≠ "") :
    (c.Organizations.any (fun o => o.Name == c.Organization) = true →
      c.GetOrganizations = c.Organizations) ∧
    (c.Organizations.any (fun o => o.Name == c.Organization) = false →
      c.GetOrganizations = c.Organizations ++
        [{ Name := c.Organization, DisplayName := c.Organization, Token := c.Token }] ∧
      c.GetOrganizations.countP (fun o => o.Name == c.Organization) = 1) := by
  constructor
  · intro hany
    simp [GitHubConfig.GetOrganizations, h, hany]
  · intro hany
    have h0 : c.Organizations.countP (fun o => o.Name == c.Organization) = 0 := by
      rw [List.countP_eq_zero]
      intro a ha
      exact (List.any_eq_false.mp hany) a ha
    constructor
    · simp [GitHubConfig.GetOrganizations, h, hany]
    · simp [GitHubConfig.GetOrganizations, h, hany, List.countP_append, h0]

/-- Witness for the amended C6: the absent legacy name is appended exactly
once. -/
theorem c6_dedup_amended_witness :
    cfgLegacyAbsent.GetOrganizations
        = cfgLegacyAbsent.Organizations ++ [⟨"acme", "acme", ""⟩] ∧
    cfgLegacyAbsent.GetOrganizations.countP (fun o => o.Name == "acme") = 1 :=
  (c6_dedup_amended cfgLegacyAbsent (by decide)).2 (by decide)

lemma mget_mset (m : AssocMap) (k : String) (v : List GitHubRepo) (k' : String) :
    mget (mset m k v) k' = if k' = k then some v else mget m k' := by
  induction m with
  | nil =>
    by_cases h : k' = k
    · subst h; simp [mset, mget]
    · simp [mset, mget, h, Ne.symm h]
  | cons p t ih =>
    obtain ⟨k0, v0⟩ := p
    by_cases h0 : k0 = k
    · subst h0
      by_cases h : k' = k0
      · subst h; simp [mset, mget]
      · simp [mset, mget, h, Ne.symm h]
    · by_cases h : k' = k0
      · subst h
        simp [mset, mget, h0, Ne.symm (fun hh => h0 hh.symm)]
      · simp [mset, mget, h0, h, Ne.symm h, ih]

lemma cacheGet_congr (fs fs' : FS) (now : Int) (k : String) (h : fs k = fs' k) :
    Cache.Get fs now k = Cache.Get fs' now k := by
  unfold Cache.Get
  rw [h]

lemma cacheSet_other (ok : Bool) (fs : FS) (now : Int) (org : String)
    (repos : List GitHubRepo) (t : Int) (k : String) (h : k ≠ org) :
    Cache.Set ok fs now org repos t k = fs k := by
  unfold Cache.Set
  by_cases hok : ok <;> simp [hok, h]

lemma scopeOutcome_congr (cl : ClientOps) (cfg : GitHubConfig) (env : String)
    (fs fs' : FS) (now : Int) (refresh : Bool) (oc : GitHubOrgConfig)
    (h : fs oc.Name = fs' oc.Name) :
    scopeOutcome cl cfg env fs now refresh oc = scopeOutcome cl cfg env fs' now refresh oc := by
  unfold scopeOutcome
  rw [cacheGet_congr fs fs' now oc.Name h]

lemma processOrg_fst_other (cl : ClientOps) (cfg : GitHubConfig) (env : String)
    (wr : String → Bool) (now : Int) (refresh : Bool) (acc : AssocMap × FS)
    (oc : GitHubOrgConfig) (k : String) (h : oc.Name ≠ k) :
    mget (processOrg cl cfg env wr now refresh acc oc).1 k = mget acc.1 k := by
  unfold processOrg
  by_cases hcond : (!refresh && (Cache.Get acc.2 now oc.Name).2) = true
  · simp [hcond, mget_mset, Ne.symm h]
  · simp only [Bool.not_eq_true] at hcond
    cases hm : (fetchScope cl oc.Name (cfg.GetTokenForOrg env oc.Name)).1 with
    | error e => simp [hcond, hm]
    | ok repos => simp [hcond, hm, mget_mset, Ne.symm h]

lemma processOrg_snd_other (cl : ClientOps) (cfg : GitHubConfig) (env : String)
    (wr : String → Bool) (now : Int) (refresh : Bool) (acc : AssocMap × FS)
    (oc : GitHubOrgConfig) (k : String) (h : k ≠ oc.Name) :
    (processOrg cl cfg env wr now refresh acc oc).2 k = acc.2 k := by
  unfold processOrg
  by_cases hcond : (!refresh && (Cache.Get acc.2 now oc.Name).2) = true
  · simp [hcond]
  · simp only [Bool.not_eq_true] at hcond
    cases hm : (fetchScope cl oc.Name (cfg.GetTokenForOrg env oc.Name)).1 with
    | error e => simp [hcond, hm]
    | ok repos => simp [hcond, hm, cacheSet_other _ _ _ _ _ _ _ h]

lemma fold_fst_other (cl : ClientOps) (cfg : GitHubConfig) (env : String)
    (wr : String → Bool) (now : Int) (refresh : Bool)
    (orgs : List GitHubOrgConfig) (acc : AssocMap × FS) (k : String)
    (h : ∀ oc ∈ orgs, oc.Name ≠ k) :
    mget ((orgs.foldl (processOrg cl cfg env wr now refresh) acc).1) k = mget acc.1 k := by
  induction orgs generalizing acc with
  | nil => rfl
  | cons o1 t ih =>
    rw [List.foldl_cons]
    rw [ih (processOrg cl cfg env wr now refresh acc o1) (fun oc hoc => h oc (by simp [hoc]))]
    exact processOrg_fst_other cl cfg env wr now refresh acc o1 k (h o1 (by simp))

lemma fold_snd_other (cl : ClientOps) (cfg : GitHubConfig) (env : String)
    (wr : String → Bool) (now : Int) (refresh : Bool)
    (orgs : List GitHubOrgConfig) (acc : AssocMap × FS) (k : String)
    (h : ∀ oc ∈ orgs, oc.Name ≠ k) :
    ((orgs.foldl (processOrg cl cfg env wr now refresh) acc).2) k = acc.2 k := by
  induction orgs generalizing acc with
  | nil => rfl
  | cons o1 t ih =>
    rw [List.foldl_cons]
    rw [ih (processOrg cl cfg env wr now refresh acc o1) (fun oc hoc => h oc (by simp [hoc]))]
    exact processOrg_snd_other cl cfg env wr now refresh acc o1 k
      (fun hh => h o1 (by simp) hh.symm)

lemma fold_mget_outcome (cl : ClientOps) (cfg : GitHubConfig) (env : String)
    (wr : String → Bool) (now : Int) (refresh : Bool)
    (orgs : List GitHubOrgConfig) (acc : AssocMap × FS)
    (hdist : orgs.Pairwise (fun a b => a.Name ≠ b.Name))
    (hnone : ∀ oc ∈ orgs, mget acc.1 oc.Name = none) :
    ∀ oc ∈ orgs, mget ((orgs.foldl (processOrg cl cfg env wr now refresh) acc).1) oc.Name
      = scopeOutcome cl cfg env acc.2 now refresh oc := by
  induction orgs generalizing acc with
  | nil => intro oc hoc; cases hoc
  | cons o1 t ih =>
    intro oc hoc
    obtain ⟨hhead, htail⟩ := List.pairwise_cons.mp hdist
    rw [List.foldl_cons]
    rcases List.mem_cons.mp hoc with rfl | hmem
    · rw [fold_fst_other cl cfg env wr now refresh t
        (processOrg cl cfg env wr now refresh acc oc) oc.Name
        (fun b hb => (hhead b hb).symm)]
      have hn : mget acc.1 oc.Name = none := hnone oc (by simp)
      unfold processOrg scopeOutcome
      by_cases hcond : (!refresh && (Cache.Get acc.2 now oc.Name).2) = true
      · simp [hcond, mget_mset]
      · simp only [Bool.not_eq_true] at hcond
        cases hm : (fetchScope cl oc.Name (cfg.GetTokenForOrg env oc.Name)).1 with
        | error e => simp [hcond, hm, hn]
        | ok repos => simp [hcond, hm, mget_mset]
    · have hnone2 : ∀ oc' ∈ t, mget (processOrg cl cfg env wr now refresh acc o1).1 oc'.Name
          = none := by
        intro oc' hoc'
        rw [processOrg_fst_other cl cfg env wr now refresh acc o1 oc'.Name (hhead oc' hoc')]
        exact hnone oc' (by simp [hoc'])
      rw [ih (processOrg cl cfg env wr now refresh acc o1) htail hnone2 oc hmem]
      exact scopeOutcome_congr cl cfg env _ acc.2 now refresh oc
        (processOrg_snd_other cl cfg env wr now refresh acc o1 oc.Name
          (fun hh => hhead oc hmem hh.symm))

lemma personalPass_fst (cl : ClientOps) (cfg : GitHubConfig) (env : String)
    (wr : String → Bool) (now : Int) (refresh : Bool) (acc : AssocMap × FS) :
    (personalPass cl cfg env wr now refresh acc).1
      = match personalIns cl cfg env acc.2 now refresh with
        | none => acc.1
        | some (u, rs) => mset acc.1 u rs := by
  by_cases hip : cfg.IncludePersonal
  case neg => simp [personalPass, personalIns, hip]
  case pos =>
    by_cases htok : cfg.GetTokenForOrg env "" = ""
    · simp [personalPass, personalIns, hip, htok]
    · cases hau : cl.GetAuthenticatedUsername (cfg.GetTokenForOrg env "") with
      | error e => simp [personalPass, personalIns, hip, htok, hau]
      | ok u =>
        cases refresh with
        | true =>
          cases hf : cl.ListAuthenticatedUserReposWithToken (cfg.GetTokenForOrg env "") with
          | error e => simp [personalPass, personalIns, hip, htok, hau, hf]
          | ok prs => simp [personalPass, personalIns, hip, htok, hau, hf]
        | false =>
          cases hc : (Cache.Get acc.2 now u).2 with
          | true => simp [personalPass, personalIns, hip, htok, hau, hc]
          | false =>
            cases hf : cl.ListAuthenticatedUserReposWithToken (cfg.GetTokenForOrg env "") with
            | error e => simp [personalPass, personalIns, hip, htok, hau, hc, hf]
            | ok prs => simp [personalPass, personalIns, hip, htok, hau, hc, hf]

/-- C9: on a cache miss (or refresh) the adapter calls the organization
endpoint first; it calls the user endpoint — with the same scope and
token — exactly when the organization call failed with a 404 condition;
a non-404 organization failure is returned as-is with no retry; and a
failed fetch leaves the loop state untouched (the scope is skipped). -/
theorem c9_org_then_user_fallback (cl : ClientOps) (name token : String) :
    ((fetchScope cl name token).2.head? = some (.org name token)) ∧
    ((fetchScope cl name token).2 = [.org name token, .user name token] ↔
      ∃ e, cl.ListOrgReposWithToken name token = .error e ∧ contains404 e = true) ∧
    (∀ e, cl.ListOrgReposWithToken name token = .error e → contains404 e = true →
      (fetchScope cl name token).1 = cl.ListUserReposWithToken name token) ∧
    (∀ e, cl.ListOrgReposWithToken name token = .error e → contains404 e = false →
      (fetchScope cl name token).1 = .error e ∧
      (fetchScope cl name token).2 = [.org name token]) ∧
    (∀ (cfg : GitHubConfig) (env : String) (wr : String → Bool) (now : Int)
        (refresh : Bool) (acc : AssocMap × FS) (oc : GitHubOrgConfig) (e : String),
      (!refresh && (Cache.Get acc.2 now oc.Name).2) = false →
      (fetchScope cl oc.Name (cfg.GetTokenForOrg env oc.Name)).1 = .error e →
      processOrg cl cfg env wr now refresh acc oc = acc) := by
  refine ⟨?_, ?_, ?_, ?_, ?_⟩
  · cases ho : cl.ListOrgReposWithToken name token with
    | ok repos => simp [fetchScope, ho]
    | error e =>
      by_cases h4 : contains404 e = true <;> simp [fetchScope, ho, h4]
  · constructor
    · intro hlist
      cases ho : cl.ListOrgReposWithToken name token with
      | ok repos => rw [fetchScope, ho] at hlist; simp at hlist
      | error e =>
        by_cases h4 : contains404 e = true
        · exact ⟨e, rfl, h4⟩
        · rw [fetchScope, ho] at hlist
          simp [h4] at hlist
    · rintro ⟨e, ho, h4⟩
      simp [fetchScope, ho, h4]
  · intro e ho h4
    simp [fetchScope, ho, h4]
  · intro e ho h4
    simp [fetchScope, ho, h4]
  · intro cfg env wr now refresh acc oc e hmiss herr
    unfold processOrg
    simp [hmiss, herr]

/-- Witness for C9: the 404 fallback calls org then user and returns the
user endpoint's repos. -/
theorem c9_org_then_user_fallback_witness :
    (fetchScope cl404 "acme" "tok").1 = .ok [sampleRepo] ∧
    (fetchScope cl404 "acme" "tok").2 = [.org "acme" "tok", .user "acme" "tok"] := by
  have h := c9_org_then_user_fallback cl404 "acme" "tok"
  constructor
  · rw [h.2.2.1 "GET /orgs: 404 Not Found" rfl (by decide)]
    rfl
  · exact h.2.1.mpr ⟨"GET /orgs: 404 Not Found", rfl, by decide⟩

/-- Counterexample to C1 as stated: scope `bob` fails — empty cache, both
endpoint attempts error — yet its name is present in the returned map,
because the personal-repos pass resolves the authenticated username to
`bob` and inserts that key.  The failed scope's name is therefore not
always absent. -/
theorem c1_personal_collision_cex :
    (fetchScope clC1 "bob" (cfgC1.GetTokenForOrg "" "bob")).1 = .error "boom" ∧
    (Cache.Get (fun _ => none) 0 "bob").2 = false ∧
    mget (ListAllReposWithRefresh clC1 cfgC1 "" (fun _ => true) (fun _ => none) 0 false).1
      "bob" = some [sampleRepo] := by
  refine ⟨rfl, rfl, ?_⟩
  rfl

/-- C1 (amended): with pairwise-distinct scope names, and provided the
personal-repos pass never inserts a configured scope's name, a scope whose
fetch fails (cache miss, both endpoint attempts error) is absent from the
returned map, while every scope that succeeded is present with its repos
— one scope's failure never aborts the others. -/
theorem c1_partial_failure_amended (cl : ClientOps) (cfg : GitHubConfig) (env : String)
    (wr : String → Bool) (fs : FS) (now : Int) (refresh : Bool)
    (hdist : cfg.GetOrganizations.Pairwise (fun a b => a.Name ≠ b.Name))
    (hlen : 2 ≤ cfg.GetOrganizations.length)
    (foc : GitHubOrgConfig) (hmem : foc ∈ cfg.GetOrganizations)
    (hmiss : (!refresh && (Cache.Get fs now foc.Name).2) = false)
    (e : String)
    (herr : (fetchScope cl foc.Name (cfg.GetTokenForOrg env foc.Name)).1 = .error e)
    (hpers : ∀ (fs2 : FS) (u : String) (rs : List GitHubRepo),
      personalIns cl cfg env fs2 now refresh = some (u, rs) →
      ∀ oc ∈ cfg.GetOrganizations, u ≠ oc.Name) :
    mget (ListAllReposWithRefresh cl cfg env wr fs now refresh).1 foc.Name = none ∧
    (∀ oc ∈ cfg.GetOrganizations, ∀ rs : List GitHubRepo,
      scopeOutcome cl cfg env fs now refresh oc = some rs →
      mget (ListAllReposWithRefresh cl cfg env wr fs now refresh).1 oc.Name = some rs) := by
  have hfold : ∀ oc ∈ cfg.GetOrganizations,
      mget ((cfg.GetOrganizations.foldl (processOrg cl cfg env wr now refresh) ([], fs)).1)
        oc.Name = scopeOutcome cl cfg env fs now refresh oc :=
    fold_mget_outcome cl cfg env wr now refresh cfg.GetOrganizations ([], fs) hdist
      (fun _ _ => rfl)
  have hres : (ListAllReposWithRefresh cl cfg env wr fs now refresh).1
      = match personalIns cl cfg env
          ((cfg.GetOrganizations.foldl (processOrg cl cfg env wr now refresh) ([], fs)).2)
          now refresh with
        | none =>
          (cfg.GetOrganizations.foldl (processOrg cl cfg env wr now refresh) ([], fs)).1
        | some (u, rs) =>
          mset ((cfg.GetOrganizations.foldl (processOrg cl cfg env wr now refresh)
            ([], fs)).1) u rs := by
    unfold ListAllReposWithRefresh
    exact personalPass_fst cl cfg env wr now refresh _
  have hcore : mget ((cfg.GetOrganizations.foldl (processOrg cl cfg env wr now refresh)
      ([], fs)).1) foc.Name = none := by
    rw [hfold foc hmem]
    unfold scopeOutcome
    simp [hmiss, herr]
  constructor
  · cases hpi : personalIns cl cfg env
        ((cfg.GetOrganizations.foldl (processOrg cl cfg env wr now refresh) ([], fs)).2)
        now refresh with
    | none =>
      rw [hres, hpi]
      exact hcore
    | some p =>
      obtain ⟨u, rs⟩ := p
      rw [hres, hpi]
      show mget (mset _ u rs) foc.Name = none
      rw [mget_mset, if_neg (Ne.symm (hpers _ u rs hpi foc hmem))]
      exact hcore
  · intro oc hoc rs hout
    have hcoreoc : mget ((cfg.GetOrganizations.foldl (processOrg cl cfg env wr now refresh)
        ([], fs)).1) oc.Name = some rs := by
      rw [hfold oc hoc]
      exact hout
    cases hpi : personalIns cl cfg env
        ((cfg.GetOrganizations.foldl (processOrg cl cfg env wr now refresh) ([], fs)).2)
        now refresh with
    | none =>
      rw [hres, hpi]
      exact hcoreoc
    | some p =>
      obtain ⟨u, prs⟩ := p
      rw [hres, hpi]
      show mget (mset _ u prs) oc.Name = some rs
      rw [mget_mset, if_neg (Ne.symm (hpers _ u prs hpi oc hoc))]
      exact hcoreoc

/-- Witness for the amended C1: `beta` fails and is absent; `alpha`
succeeded and is present. -/
theorem c1_partial_failure_amended_witness :
    mget (ListAllReposWithRefresh clC1w cfgC1w "" (fun _ => true) (fun _ => none) 0 false).1
      "beta" = none ∧
    mget (ListAllReposWithRefresh clC1w cfgC1w "" (fun _ => true) (fun _ => none) 0 false).1
      "alpha" = some [sampleRepo] := by
  have h := c1_partial_failure_amended clC1w cfgC1w "" (fun _ => true) (fun _ => none) 0 false
    (by decide) (by decide) ⟨"beta", "", ""⟩ (by decide) rfl "boom" rfl
    (fun fs2 u rs hpi => by simp [personalIns, cfgC1w, cfgHTTPS] at hpi)
  exact ⟨h.1, h.2 ⟨"alpha", "", ""⟩ (by decide) [sampleRepo] rfl⟩

lemma mget_mem (m : AssocMap) (k : String) (v : List GitHubRepo) (h : mget m k = some v) :
    (k, v) ∈ m := by
  induction m with
  | nil => cases h
  | cons p t ih =>
    obtain ⟨k0, v0⟩ := p
    rw [mget] at h
    by_cases h0 : k0 = k
    · rw [if_pos h0] at h
      simp [h0, Option.some.inj h]
    · rw [if_neg h0] at h
      exact List.mem_cons_of_mem _ (ih h)

lemma repoAccept_some_inv (cfg : GitHubConfig) (homeDir : String)
    (statExists : String → Bool) (scopeName displayName : String) (repo : GitHubRepo)
    (key : String) (sess : SeshSession)
    (h : repoAccept cfg homeDir statExists scopeName displayName repo = some (key, sess)) :
    repo.Archived = false ∧ repo.Disabled = false ∧
      key = "github:" ++ scopeName ++ "/" ++ repo.Name := by
  unfold repoAccept at h
  by_cases h1 : (repo.Archived || repo.Disabled) = true
  · rw [if_pos h1] at h
    cases h
  · rw [if_neg h1] at h
    simp only [Bool.or_eq_true, not_or, Bool.not_eq_true] at h1
    refine ⟨h1.1, h1.2, ?_⟩
    by_cases h2 : (!statExists (ghClonePath cfg homeDir scopeName repo.Name) &&
        !cfg.ShouldShowUncloned) = true
    · rw [if_pos h2] at h
      cases h
    · rw [if_neg h2] at h
      exact (congrArg Prod.fst (Option.some.inj h)).symm

lemma processRepos_index_P (cfg : GitHubConfig) (homeDir : String)
    (statExists : String → Bool) (scopeName displayName : String) (P : String → Prop) :
    ∀ (repos : List GitHubRepo) (acc : List String × List (String × SeshSession)),
    (∀ repo ∈ repos, ∀ key sess,
      repoAccept cfg homeDir statExists scopeName displayName repo = some (key, sess) →
      P key) →
    (∀ k ∈ acc.1, P k) →
    ∀ k ∈ (processRepos cfg homeDir statExists scopeName displayName acc repos).1, P k := by
  intro repos
  induction repos with
  | nil => intro acc _ hacc; exact hacc
  | cons r t ih =>
    intro acc h1 hacc k hk
    refine ih (repoStep cfg homeDir statExists scopeName displayName acc r)
      (fun repo hrepo => h1 repo (List.mem_cons_of_mem _ hrepo)) ?_ k hk
    intro k' hk'
    unfold repoStep at hk'
    cases hra : repoAccept cfg homeDir statExists scopeName displayName r with
    | none =>
      rw [hra] at hk'
      exact hacc k' hk'
    | some p =>
      obtain ⟨key2, sess2⟩ := p
      rw [hra] at hk'
      rcases List.mem_append.mp hk' with hIn | hNew
      · exact hacc k' hIn
      · rw [List.mem_singleton.mp hNew]
        exact h1 r (List.mem_cons_self r t) key2 sess2 hra

lemma repoAccept_keyFromActive (cfg : GitHubConfig) (homeDir : String)
    (statExists : String → Bool) (scopeName displayName : String)
    (allRepos : AssocMap) (repos : List GitHubRepo)
    (hm : mget allRepos scopeName = some repos) :
    ∀ repo ∈ repos, ∀ key sess,
      repoAccept cfg homeDir statExists scopeName displayName repo = some (key, sess) →
      keyFromActive allRepos key = true := by
  intro repo hrepo key sess hra
  obtain ⟨hA, hD, hkey⟩ := repoAccept_some_inv cfg homeDir statExists scopeName displayName
    repo key sess hra
  unfold keyFromActive
  rw [List.any_eq_true]
  refine ⟨(scopeName, repos), mget_mem _ _ _ hm, ?_⟩
  rw [List.any_eq_true]
  exact ⟨repo, hrepo, by simp [hA, hD, hkey]⟩

lemma orgFold_index (cfg : GitHubConfig) (homeDir : String) (statExists : String → Bool)
    (allRepos : AssocMap) :
    ∀ (orgs : List GitHubOrgConfig) (acc : List String × List (String × SeshSession)),
    (∀ k ∈ acc.1, keyFromActive allRepos k = true) →
    ∀ k ∈ (orgs.foldl (orgRepoStep cfg homeDir statExists allRepos) acc).1,
      keyFromActive allRepos k = true := by
  intro orgs
  induction orgs with
  | nil => intro acc hacc; exact hacc
  | cons o1 t ih =>
    intro acc hacc k hk
    refine ih (orgRepoStep cfg homeDir statExists allRepos acc o1) ?_ k hk
    unfold orgRepoStep
    cases hm : mget allRepos o1.Name with
    | none => exact hacc
    | some repos =>
      exact processRepos_index_P cfg homeDir statExists o1.Name _ _ repos acc
        (repoAccept_keyFromActive cfg homeDir statExists o1.Name _ allRepos repos hm) hacc

lemma personalRepoPass_index (cfg : GitHubConfig) (homeDir : String)
    (statExists : String → Bool) (allRepos : AssocMap)
    (authUser : Except String String) (env : String)
    (acc1 : List String × List (String × SeshSession))
    (hacc : ∀ k ∈ acc1.1, keyFromActive allRepos k = true) :
    ∀ k ∈ (personalRepoPass cfg homeDir statExists allRepos authUser env acc1).1,
      keyFromActive allRepos k = true := by
  intro k hk
  unfold personalRepoPass at hk
  by_cases hip : cfg.IncludePersonal = true
  · rw [if_pos hip] at hk
    by_cases htok : cfg.GetTokenForOrg env "" ≠ ""
    · rw [if_pos htok] at hk
      cases authUser with
      | error e => exact hacc k hk
      | ok username =>
        replace hk : k ∈ (match mget allRepos username with
            | none => acc1
            | some prs => processRepos cfg homeDir statExists username username acc1 prs).1 :=
          hk
        cases hm : mget allRepos username with
        | none =>
          rw [hm] at hk
          exact hacc k hk
        | some prs =>
          rw [hm] at hk
          exact processRepos_index_P cfg homeDir statExists username username _ prs acc1
            (repoAccept_keyFromActive cfg homeDir statExists username username allRepos
              prs hm) hacc k hk
    · rw [if_neg htok] at hk
      exact hacc k hk
  · rw [if_neg hip] at hk
    exact hacc k hk

/-- C7: every key of the GitHub catalog's ordered index originates from a
repo of the fetched map whose `Archived` and `Disabled` flags are both
false — so an archived or disabled repo never yields a catalog entry,
whatever the show-uncloned setting and whatever is cloned locally. -/
theorem c7_archived_never_listed (cfg : GitHubConfig) (homeDir : String)
    (statExists : String → Bool) (allRepos : AssocMap)
    (authUser : Except String String) (env : String) :
    ∀ k ∈ (listGitHub cfg homeDir statExists allRepos authUser env).OrderedIndex,
      keyFromActive allRepos k = true := by
  intro k hk
  unfold listGitHub at hk
  split at hk
  · cases hk
  · exact personalRepoPass_index cfg homeDir statExists allRepos authUser env
      (cfg.GetOrganizations.foldl (orgRepoStep cfg homeDir statExists allRepos) ([], []))
      (orgFold_index cfg homeDir statExists allRepos cfg.GetOrganizations ([], [])
        (fun k' hk' => absurd hk' (List.not_mem_nil k')))
      k hk

/-- Witness for C7: with map `acme ↦ [widgets, oldtool(archived)]` the
index is exactly the `widgets` key, and that key satisfies the
active-origin predicate. -/
theorem c7_archived_never_listed_witness :
    (listGitHub cfgAcme "/home/u" (fun _ => false)
        [("acme", [sampleRepo, archivedRepo])] (.error "") "").OrderedIndex
      = ["github:acme/widgets"] ∧
    keyFromActive [("acme", [sampleRepo, archivedRepo])] "github:acme/widgets" = true := by
  refine ⟨rfl, ?_⟩
  exact c7_archived_never_listed cfgAcme "/home/u" (fun _ => false)
    [("acme", [sampleRepo, archivedRepo])] (.error "") "" "github:acme/widgets"
    (by decide)

lemma dget_dset (d : List (String × SeshSession)) (k : String) (v : SeshSession)
    (k' : String) : dget (dset d k v) k' = if k' = k then some v else dget d k' := by
  induction d with
  | nil =>
    by_cases h : k' = k
    · subst h; simp [dset, dget]
    · simp [dset, dget, h, Ne.symm h]
  | cons p t ih =>
    obtain ⟨k0, v0⟩ := p
    by_cases h0 : k0 = k
    · subst h0
      by_cases h : k' = k0
      · subst h; simp [dset, dget]
      · simp [dset, dget, h, Ne.symm h]
    · by_cases h : k' = k0
      · subst h
        simp [dset, dget, h0, Ne.symm (fun hh => h0 hh.symm)]
      · simp [dset, dget, h0, h, Ne.symm h, ih]

lemma dget_none_iff (d : List (String × SeshSession)) (k : String) :
    dget d k = none ↔ k ∉ d.map Prod.fst := by
  induction d with
  | nil => simp [dget]
  | cons p t ih =>
    obtain ⟨k0, v0⟩ := p
    by_cases h : k0 = k
    · subst h; simp [dget]
    · simp [dget, h, Ne.symm h, ih, eq_comm]

lemma dget_isSome_iff (d : List (String × SeshSession)) (k : String) :
    (dget d k).isSome = true ↔ k ∈ d.map Prod.fst := by
  rw [Option.isSome_iff_ne_none]
  rw [show (k ∈ d.map Prod.fst) = ¬¬(k ∈ d.map Prod.fst) from (propext not_not).symm]
  rw [not_iff_not, dget_none_iff]

lemma dkeys_dset (d : List (String × SeshSession)) (k : String) (v : SeshSession) :
    (dset d k v).map Prod.fst
      = if k ∈ d.map Prod.fst then d.map Prod.fst else d.map Prod.fst ++ [k] := by
  induction d with
  | nil => simp [dset]
  | cons p t ih =>
    obtain ⟨k0, v0⟩ := p
    by_cases h : k0 = k
    · subst h; simp [dset]
    · rw [show dset ((k0, v0) :: t) k v = (k0, v0) :: dset t k v by simp [dset, h]]
      by_cases hmem : k ∈ t.map Prod.fst <;>
        simp [hmem, ih, h, Ne.symm h]

lemma dset_nodup (d : List (String × SeshSession)) (k : String) (v : SeshSession)
    (h : (d.map Prod.fst).Nodup) : ((dset d k v).map Prod.fst).Nodup := by
  rw [dkeys_dset]
  by_cases hmem : k ∈ d.map Prod.fst
  · simpa [hmem] using h
  · rw [if_neg hmem, List.nodup_append]
    exact ⟨h, List.nodup_singleton k,
      fun a ha hb => hmem (by rwa [List.mem_singleton.mp hb] at ha)⟩

lemma repoStep_inv (cfg : GitHubConfig) (homeDir : String) (statExists : String → Bool)
    (scopeName displayName : String) (acc : List String × List (String × SeshSession))
    (repo : GitHubRepo) (h : IndexDirInv acc) :
    IndexDirInv (repoStep cfg homeDir statExists scopeName displayName acc repo) := by
  unfold repoStep
  cases hra : repoAccept cfg homeDir statExists scopeName displayName repo with
  | none => exact h
  | some p =>
    obtain ⟨key, sess⟩ := p
    constructor
    · intro k
      rw [List.mem_append, List.mem_singleton, dget_dset]
      by_cases hk : k = key
      · simp [hk]
      · simp [hk, h.1 k]
    · exact dset_nodup _ _ _ h.2

lemma processRepos_inv (cfg : GitHubConfig) (homeDir : String) (statExists : String → Bool)
    (scopeName displayName : String) :
    ∀ (repos : List GitHubRepo) (acc : List String × List (String × SeshSession)),
    IndexDirInv acc →
    IndexDirInv (processRepos cfg homeDir statExists scopeName displayName acc repos) := by
  intro repos
  induction repos with
  | nil => intro acc h; exact h
  | cons r t ih =>
    intro acc h
    exact ih (repoStep cfg homeDir statExists scopeName displayName acc r)
      (repoStep_inv cfg homeDir statExists scopeName displayName acc r h)

lemma orgFold_inv (cfg : GitHubConfig) (homeDir : String) (statExists : String → Bool)
    (allRepos : AssocMap) :
    ∀ (orgs : List GitHubOrgConfig) (acc : List String × List (String × SeshSession)),
    IndexDirInv acc →
    IndexDirInv (orgs.foldl (orgRepoStep cfg homeDir statExists allRepos) acc) := by
  intro orgs
  induction orgs with
  | nil => intro acc h; exact h
  | cons o1 t ih =>
    intro acc h
    refine ih (orgRepoStep cfg homeDir statExists allRepos acc o1) ?_
    unfold orgRepoStep
    cases hm : mget allRepos o1.Name with
    | none => exact h
    | some repos => exact processRepos_inv cfg homeDir statExists o1.Name _ repos acc h

lemma personalRepoPass_inv (cfg : GitHubConfig) (homeDir : String)
    (statExists : String → Bool) (allRepos : AssocMap)
    (authUser : Except String String) (env : String)
    (acc1 : List String × List (String × SeshSession)) (h : IndexDirInv acc1) :
    IndexDirInv (personalRepoPass cfg homeDir statExists allRepos authUser env acc1) := by
  unfold personalRepoPass
  by_cases hip : cfg.IncludePersonal = true
  · rw [if_pos hip]
    by_cases htok : cfg.GetTokenForOrg env "" ≠ ""
    · rw [if_pos htok]
      cases authUser with
      | error e => exact h
      | ok username =>
        show IndexDirInv (match mget allRepos username with
          | none => acc1
          | some prs => processRepos cfg homeDir statExists username username acc1 prs)
        cases hm : mget allRepos username with
        | none => exact h
        | some prs => exact processRepos_inv cfg homeDir statExists username username prs acc1 h
    · rw [if_neg htok]
      exact h
  · rw [if_neg hip]
    exact h

/-- Counterexample to C8 as stated: with the scope `acme` configured twice
(via the legacy field plus a duplicated list) and one fetched repo, the
produced OrderedIndex holds the same key twice — it has duplicates and its
length exceeds the number of Directory entries. -/
theorem c8_index_nodup_cex :
    ¬ ((listGitHub cfgDupLegacy "/home/u" (fun _ => false) [("acme", [sampleRepo])]
          (.error "") "").OrderedIndex.Nodup ∧
       (listGitHub cfgDupLegacy "/home/u" (fun _ => false) [("acme", [sampleRepo])]
          (.error "") "").OrderedIndex.length
         = (listGitHub cfgDupLegacy "/home/u" (fun _ => false) [("acme", [sampleRepo])]
          (.error "") "").Directory.length) := by
  decide

/-- C8 (amended): the Directory never holds a key twice and its key set
always coincides with the membership of OrderedIndex; every key of
OrderedIndex occurs in the Directory exactly once; and whenever the
generated OrderedIndex is duplicate-free (as with pairwise-distinct scope
names and per-scope repo names), its length equals the number of
Directory entries. -/
theorem c8_index_directory_amended (cfg : GitHubConfig) (homeDir : String)
    (statExists : String → Bool) (allRepos : AssocMap)
    (authUser : Except String String) (env : String) (S : SeshSessions)
    (hS : S = listGitHub cfg homeDir statExists allRepos authUser env) :
    (S.Directory.map Prod.fst).Nodup ∧
    (∀ k, k ∈ S.OrderedIndex ↔ (dget S.Directory k).isSome) ∧
    (∀ k ∈ S.OrderedIndex, (S.Directory.map Prod.fst).count k = 1) ∧
    (S.OrderedIndex.Nodup → S.OrderedIndex.length = S.Directory.length) := by
  subst hS
  unfold listGitHub
  by_cases h0 : cfg.GetOrganizations.length = 0
  · rw [if_pos h0]
    exact ⟨by simp, by simp [dget], by simp, by simp⟩
  · rw [if_neg h0]
    have hinv : IndexDirInv (personalRepoPass cfg homeDir statExists allRepos authUser env
        (cfg.GetOrganizations.foldl (orgRepoStep cfg homeDir statExists allRepos)
          ([], []))) :=
      personalRepoPass_inv cfg homeDir statExists allRepos authUser env _
        (orgFold_inv cfg homeDir statExists allRepos cfg.GetOrganizations ([], [])
          ⟨by simp [dget], by simp⟩)
    refine ⟨hinv.2, fun k => hinv.1 k, ?_, ?_⟩
    · intro k hk
      have hmem : k ∈ (personalRepoPass cfg homeDir statExists allRepos authUser env
          (cfg.GetOrganizations.foldl (orgRepoStep cfg homeDir statExists allRepos)
            ([], []))).2.map Prod.fst :=
        (dget_isSome_iff _ k).mp ((hinv.1 k).mp hk)
      exact List.count_eq_one_of_mem hinv.2 hmem
    · intro hnodup
      have hiff : ∀ k, k ∈ (personalRepoPass cfg homeDir statExists allRepos authUser env
          (cfg.GetOrganizations.foldl (orgRepoStep cfg homeDir statExists allRepos)
            ([], []))).1 ↔
          k ∈ (personalRepoPass cfg homeDir statExists allRepos authUser env
          (cfg.GetOrganizations.foldl (orgRepoStep cfg homeDir statExists allRepos)
            ([], []))).2.map Prod.fst :=
        fun k => (hinv.1 k).trans (dget_isSome_iff _ k)
      have hperm := (List.perm_ext_iff_of_nodup hnodup hinv.2).mpr hiff
      rw [hperm.length_eq, List.length_map]

/-- Witness for the amended C8 at a single-scope catalog. -/
theorem c8_index_directory_amended_witness :
    ((listGitHub cfgAcme "/home/u" (fun _ => false) [("acme", [sampleRepo])]
        (.error "") "").Directory.map Prod.fst).count "github:acme/widgets" = 1 ∧
    (listGitHub cfgAcme "/home/u" (fun _ => false) [("acme", [sampleRepo])]
        (.error "") "").OrderedIndex.length
      = (listGitHub cfgAcme "/home/u" (fun _ => false) [("acme", [sampleRepo])]
        (.error "") "").Directory.length := by
  have h := c8_index_directory_amended cfgAcme "/home/u" (fun _ => false)
    [("acme", [sampleRepo])] (.error "") "" _ rfl
  exact ⟨h.2.2.1 "github:acme/widgets" (by decide), h.2.2.2 (by decide)⟩

lemma startsLit_self (n r : List Char) : startsLit n (n ++ r) = true := by
  induction n with
  | nil => rfl
  | cons c cs ih => simp [startsLit, ih]

lemma containsLit_of_starts (n h : List Char) (hs : startsLit n h = true) :
    containsLit n h = true := by
  cases h with
  | nil =>
    cases n with
    | nil => rfl
    | cons c cs => cases hs
  | cons d ds =>
    rw [containsLit]
    simp [hs]

lemma splitCh_ne_nil (s : List Char) : splitCh s ≠ [] := by
  induction s with
  | nil => simp [splitCh]
  | cons c cs ih =>
    rw [splitCh]
    cases h : splitCh cs with
    | nil => exact absurd h ih
    | cons hh tt => by_cases hc : c = ' ' <;> simp [hc]

lemma splitCh_space (b : List Char) : splitCh (' ' :: b) = [] :: splitCh b := by
  rw [splitCh]
  cases h : splitCh b with
  | nil => exact absurd h (splitCh_ne_nil b)
  | cons hh tt => simp

lemma splitCh_append_nospace (a : List Char) (ha : ∀ c ∈ a, c ≠ ' ') :
    ∀ b h t, splitCh b = h :: t → splitCh (a ++ b) = (a ++ h) :: t := by
  induction a with
  | nil => intro b h t hb; simpa using hb
  | cons c cs ih =>
    intro b h t hb
    have hc : c ≠ ' ' := ha c (by simp)
    rw [List.cons_append, splitCh, ih (fun d hd => ha d (by simp [hd])) b h t hb]
    simp [hc]

lemma splitCh_nospace (a : List Char) (ha : ∀ c ∈ a, c ≠ ' ') : splitCh a = [a] := by
  have h := splitCh_append_nospace a ha [] [] [] rfl
  simpa using h

lemma splitCh_word (w rest : List Char) (hw : ∀ c ∈ w, c ≠ ' ')
    (h : List Char) (t : List (List Char)) (hrest : splitCh rest = h :: t) :
    splitCh (w ++ ' ' :: rest) = w :: h :: t := by
  have hsp : splitCh (' ' :: rest) = [] :: h :: t := by
    rw [splitCh_space, hrest]
  have hres := splitCh_append_nospace w hw (' ' :: rest) [] (h :: t) hsp
  simpa using hres

lemma splitSpace_clone_cmd (url path : String)
    (hu2 : ∀ c ∈ url.data, c ≠ ' ') (hp2 : ∀ c ∈ path.data, c ≠ ' ') :
    splitSpace ("git clone " ++ url ++ " " ++ path ++ " && cd " ++ path)
      = ["git", "clone", url, path, "&&", "cd", path] := by
  have hdata : ("git clone " ++ url ++ " " ++ path ++ " && cd " ++ path).data
      = "git".data ++ ' ' :: ("clone".data ++ ' ' :: (url.data ++ ' ' :: (path.data ++
        ' ' :: ("&&".data ++ ' ' :: ("cd".data ++ ' ' :: path.data))))) := by
    simp only [String.data_append]
    simp [List.append_assoc]
  have hgit : ∀ c ∈ "git".data, c ≠ ' ' := by decide
  have hclone : ∀ c ∈ "clone".data, c ≠ ' ' := by decide
  have hamp : ∀ c ∈ "&&".data, c ≠ ' ' := by decide
  have hcd : ∀ c ∈ "cd".data, c ≠ ' ' := by decide
  have s7 : splitCh path.data = [path.data] := splitCh_nospace path.data hp2
  have s6 := splitCh_word "cd".data path.data hcd path.data [] s7
  have s5 := splitCh_word "&&".data ("cd".data ++ ' ' :: path.data) hamp
    "cd".data [path.data] s6
  have s4 := splitCh_word path.data ("&&".data ++ ' ' :: ("cd".data ++ ' ' :: path.data))
    hp2 "&&".data ["cd".data, path.data] s5
  have s3 := splitCh_word url.data
    (path.data ++ ' ' :: ("&&".data ++ ' ' :: ("cd".data ++ ' ' :: path.data)))
    hu2 path.data ["&&".data, "cd".data, path.data] s4
  have s2 := splitCh_word "clone".data
    (url.data ++ ' ' :: (path.data ++ ' ' :: ("&&".data ++ ' ' :: ("cd".data ++
      ' ' :: path.data))))
    hclone url.data [path.data, "&&".data, "cd".data, path.data] s3
  have s1 := splitCh_word "git".data
    ("clone".data ++ ' ' :: (url.data ++ ' ' :: (path.data ++ ' ' :: ("&&".data ++
      ' ' :: ("cd".data ++ ' ' :: path.data)))))
    hgit "clone".data [url.data, path.data, "&&".data, "cd".data, path.data] s2
  unfold splitSpace
  rw [hdata, s1]
  simp [stringMkData]

/-- C4: when the GitHub strategy finds a session whose startup command has
the form `git clone <url> <path> && cd <path>` (with space-free url and
path), every successful resolution returns `Found = true`, a session with
an empty startup command whose `Path` is the clone target, flagged new and
register-in-recency-index — and `git.Clone` is invoked exactly when the
target path does not already exist. -/
theorem c4_github_strategy_clone (e : ConnEnv) (name : String) (s : SeshSession)
    (url path : String) (hfind : e.find name = some s)
    (hcmd : s.StartupCommand = "git clone " ++ url ++ " " ++ path ++ " && cd " ++ path)
    (hu2 : ∀ c ∈ url.data, c ≠ ' ') (hp2 : ∀ c ∈ path.data, c ≠ ' ')
    (conn : Connection) (calls : List (String × String × String))
    (hok : githubStrategy e name = .ok (conn, calls)) :
    conn.Found = true ∧ conn.Session.StartupCommand = "" ∧ conn.Session.Path = path ∧
    conn.New = true ∧ conn.AddToZoxide = true ∧
    (calls ≠ [] ↔ e.statExists path = false) := by
  unfold githubStrategy at hok
  rw [hfind] at hok
  replace hok :
      ((if (s.StartupCommand != "" && strContains s.StartupCommand "git clone") then
        match splitSpace s.StartupCommand with
        | p0 :: p1 :: repoURL :: clonePath :: _ =>
          if (p0 == "git" && p1 == "clone") then
            if e.mkdirOk (dirName clonePath) then
              if e.statExists clonePath then
                Except.ok ({ Found := true
                             Session := { s with Path := clonePath, StartupCommand := "" }
                             New := true
                             AddToZoxide := true },
                  ([] : List (String × String × String)))
              else
                match e.cloneOk repoURL (dirName clonePath) (baseName clonePath) with
                | .error err => .error ("failed to clone repository: " ++ err)
                | .ok _ =>
                  .ok ({ Found := true
                         Session := { s with Path := clonePath, StartupCommand := "" }
                         New := true
                         AddToZoxide := true },
                    [(repoURL, dirName clonePath, baseName clonePath)])
            else .error "failed to create parent directory"
          else .ok ({ Found := true, Session := s, New := true, AddToZoxide := true }, [])
        | _ => .ok ({ Found := true, Session := s, New := true, AddToZoxide := true }, [])
      else .ok ({ Found := true, Session := s, New := true, AddToZoxide := true }, []) :
        Except String (Connection × List (String × String × String))))
      = .ok (conn, calls) := hok
  rw [hcmd] at hok
  have hne : ("git clone " ++ url ++ " " ++ path ++ " && cd " ++ path) ≠ "" := by
    intro hcontra
    have hd := congrArg String.data hcontra
    simp [String.data_append] at hd
  have hdata2 : ("git clone " ++ url ++ " " ++ path ++ " && cd " ++ path).data
      = "git clone".data ++ (' ' :: (url.data ++ ' ' :: (path.data ++ ' ' ::
        ("&&".data ++ ' ' :: ("cd".data ++ ' ' :: path.data))))) := by
    simp [String.data_append, List.append_assoc]
  have hcont : strContains ("git clone " ++ url ++ " " ++ path ++ " && cd " ++ path)
      "git clone" = true := by
    unfold strContains
    rw [hdata2]
    exact containsLit_of_starts _ _ (startsLit_self _ _)
  have hcondT : (("git clone " ++ url ++ " " ++ path ++ " && cd " ++ path) != "" &&
      strContains ("git clone " ++ url ++ " " ++ path ++ " && cd " ++ path)
        "git clone") = true := by
    rw [Bool.and_eq_true]
    exact ⟨bne_iff_ne.mpr hne, hcont⟩
  rw [if_pos hcondT, splitSpace_clone_cmd url path hu2 hp2] at hok
  replace hok :
      ((if (("git" == "git") && ("clone" == "clone")) = true then
        (if e.mkdirOk (dirName path) = true then
          (if e.statExists path = true then
            Except.ok ({ Found := true
                         Session := { s with Path := path, StartupCommand := "" }
                         New := true
                         AddToZoxide := true },
              ([] : List (String × String × String)))
          else
            match e.cloneOk url (dirName path) (baseName path) with
            | .error err => .error ("failed to clone repository: " ++ err)
            | .ok _ =>
              .ok ({ Found := true
                     Session := { s with Path := path, StartupCommand := "" }
                     New := true
                     AddToZoxide := true }, [(url, dirName path, baseName path)]))
        else .error "failed to create parent directory")
      else .ok ({ Found := true, Session := s, New := true, AddToZoxide := true }, []) :
        Except String (Connection × List (String × String × String))))
      = .ok (conn, calls) := hok
  rw [if_pos (show (("git" == "git") && ("clone" == "clone")) = true from rfl)] at hok
  by_cases hmk : e.mkdirOk (dirName path) = true
  · rw [if_pos hmk] at hok
    by_cases hex : e.statExists path = true
    · rw [if_pos hex] at hok
      have hinj := Except.ok.inj hok
      have hc := congrArg Prod.fst hinj
      have hl := congrArg Prod.snd hinj
      subst hc
      subst hl
      refine ⟨rfl, rfl, rfl, rfl, rfl, ?_⟩
      simp [hex]
    · rw [if_neg hex] at hok
      have hexF : e.statExists path = false := by simpa using hex
      cases hcl : e.cloneOk url (dirName path) (baseName path) with
      | error err =>
        rw [hcl] at hok
        simp at hok
      | ok u =>
        rw [hcl] at hok
        have hinj := Except.ok.inj hok
        have hc := congrArg Prod.fst hinj
        have hl := congrArg Prod.snd hinj
        subst hc
        subst hl
        refine ⟨rfl, rfl, rfl, rfl, rfl, ?_⟩
        simp [hexF]
  · rw [if_neg hmk] at hok
    simp at hok

/-- Witness for C4: resolving the un-cloned `acme/widgets` session clones
exactly once and returns the materialized session. -/
theorem c4_github_strategy_clone_witness :
    connC4.Found = true ∧ connC4.Session.StartupCommand = "" ∧
    connC4.Session.Path = "/home/u/git/github.com/acme/widgets" ∧
    connC4.New = true ∧ connC4.AddToZoxide = true ∧
    ([("https://github.com/acme/widgets.git", "/home/u/git/github.com/acme", "widgets")]
        ≠ ([] : List (String × String × String)) ↔
      envC4.statExists "/home/u/git/github.com/acme/widgets" = false) :=
  c4_github_strategy_clone envC4 "acme/widgets" sessC4
    "https://github.com/acme/widgets.git" "/home/u/git/github.com/acme/widgets"
    rfl rfl (by decide) (by decide) connC4
    [("https://github.com/acme/widgets.git", "/home/u/git/github.com/acme", "widgets")]
    rfl
